import Mathlib

/-!
# A shallow embedding of `gcs-cacher` (package `cacher`, file `cacher.go`)

This file models the save/restore pipeline of `sethvargo/gcs-cacher`:

* the tar-entry construction performed by `Save`'s `filepath.Walk` callback
  (cacher.go lines 123-166), including the exact path mangling
  `strings.TrimPrefix(strings.Replace(name, dir, "", -1), string(filepath.Separator))`;
* the key-probing / freshest-match loop of `Restore` (lines 212-228);
* the decode loop of `Restore` (lines 278-332) over an explicit file-system
  state, with `os.MkdirAll`, `os.OpenFile(target, os.O_CREATE|os.O_RDWR, mode)`
  and `io.Copy` modelled faithfully (note: no `os.O_TRUNC` flag is passed);
* the input validation of `Save` (lines 56-79) and `Restore` (lines 184-206);
* the deferred close handlers of both pipelines (lines 84-120 and 248-272),
  as an explicit LIFO defer stack updating the named result `retErr`.

Modelling conventions:

* Go strings and byte slices are `List Char` / `List Nat`; `filepath.Separator`
  is `'/'` (the program targets a Unix filesystem).
* The directory tree on disk is an inductive `FSNode`; `filepath.Walk`'s
  traversal order over a directory is modelled as the stored child order
  (`Walk` visits lexically sorted names; no claim below depends on the order).
* The GCS bucket is a function from object key to a lookup outcome
  (`ObjectAttrs`, not-exist, or another error), mirroring
  `bucketHandle.Object(key).Attrs(ctx)`; object contents are the decoded
  entry sequence (the gzip+tar byte transport is treated as the identity
  codec between `Save`'s writer and `Restore`'s reader).
* Errors are their rendered messages (`List Char`), built with the exact
  format strings of the source; `fmt`'s `%q` on a `[]string` is modelled at
  byte level for ASCII data (Go's special two-character escapes, then
  hexadecimal escapes for other control bytes).
-/

namespace GCSCacher

/-- Byte string, i.e. a Go `string` at the level this model needs. -/
abbrev Str := List Char

/-- `filepath.Separator` on the target platform. -/
def sep : Char := '/'

/-- `strings.Replace(s, old, "", -1)`: remove every occurrence of `old` in
`s`, scanning left to right, non-overlapping; with `old` empty Go inserts
the (empty) replacement between runes, which leaves `s` unchanged. -/
def replaceAll (s old : Str) : Str :=
  if ho : old = [] then s
  else if hp : old.isPrefixOf s then replaceAll (s.drop old.length) old
  else
    match s with
    | [] => []
    | c :: rest => c :: replaceAll rest old
termination_by s.length
decreasing_by
  · have hop : 0 < old.length := List.length_pos.mpr ho
    have hsp : old.length ≤ s.length := by
      have := List.IsPrefix.length_le (List.isPrefixOf_iff_prefix.mp hp)
      simpa using this
    have hs : 0 < s.length := lt_of_lt_of_le hop hsp
    simp only [List.length_drop]
    omega
  · simp

/-- `strings.TrimPrefix(s, pre)`. -/
def trimPrefix (pre s : Str) : Str :=
  if pre.isPrefixOf s then s.drop pre.length else s

/-- The `header.Name` computed by `Save`'s walk callback for a file whose
full walk path is `name` under cached root `dir` (cacher.go line 137):
`strings.TrimPrefix(strings.Replace(name, dir, "", -1), string(filepath.Separator))`. -/
def tarEntryName (dir name : Str) : Str :=
  trimPrefix [sep] (replaceAll name dir)

/-- `tar.TypeReg` ('0'). -/
def typeReg : Char := '0'

/-- `tar.TypeDir` ('5'). -/
def typeDir : Char := '5'

/-- One tar entry as produced/consumed by the pipelines: `header.Name`,
`header.Typeflag`, `header.Mode` (permission bits) and the content bytes
(whose length is `header.Size`). -/
structure Entry where
  name : Str
  typeflag : Char
  mode : Nat
  content : List Nat
  deriving Repr, DecidableEq

/-- A node of the on-disk tree walked by `Save`: a regular file (permission
bits and content), a directory with named children, or a non-regular object
(symlink, device, socket, ...) for which `f.Mode().IsRegular()` is false. -/
inductive FSNode where
  | file (mode : Nat) (content : List Nat) : FSNode
  | dir (children : List (Str × FSNode)) : FSNode
  | symlink : FSNode
  | special : FSNode
  deriving Repr

/-- The tar entries emitted by `Save`'s `filepath.Walk` callback
(cacher.go lines 123-162) while traversing the children of a directory whose
full walk path is `pfx`, with cached root `dir`: a regular file is archived
with name `tarEntryName dir (its full path)`, typeflag `tar.TypeReg`, the
file's permission bits (`tar.FileInfoHeader` stores `fi.Mode().Perm()` for a
regular file) and its content; every non-regular node (directories included:
the callback returns early when `!f.Mode().IsRegular()`) contributes no
entry of its own, and directories are recursed into by `Walk`. Child paths
are joined with the separator as `filepath.Walk` does. -/
def walkEntries (dir pfx : Str) : List (Str × FSNode) → List Entry
  | [] => []
  | (n, FSNode.file m c) :: rest =>
      ⟨tarEntryName dir (pfx ++ sep :: n), typeReg, m, c⟩ :: walkEntries dir pfx rest
  | (n, FSNode.dir cs) :: rest =>
      walkEntries dir (pfx ++ sep :: n) cs ++ walkEntries dir pfx rest
  | (_, FSNode.symlink) :: rest => walkEntries dir pfx rest
  | (_, FSNode.special) :: rest => walkEntries dir pfx rest
termination_by cs => sizeOf cs

/-- The archive `Save` builds for cached root path `dir` whose directory
contents are `cs`: `filepath.Walk(dir, ...)` visits `dir` itself first (a
directory, hence skipped by the `IsRegular` test) and then its subtree. -/
def saveEntries (dir : Str) (cs : List (Str × FSNode)) : List Entry :=
  walkEntries dir dir cs

/-- The regular files of a directory's subtree, as (path relative to that
directory, permission bits, content) triples, in walk order. This is the
specification-side inventory used to state what an archive should contain. -/
def relFiles : List (Str × FSNode) → List (Str × Nat × List Nat)
  | [] => []
  | (n, FSNode.file m c) :: rest => (n, m, c) :: relFiles rest
  | (n, FSNode.dir cs) :: rest =>
      (relFiles cs).map (fun p => (n ++ sep :: p.1, p.2)) ++ relFiles rest
  | (_, FSNode.symlink) :: rest => relFiles rest
  | (_, FSNode.special) :: rest => relFiles rest
termination_by cs => sizeOf cs

/-- Convert a Lean string literal to the byte-string type of the model. -/
def str (s : String) : Str := s.data

/-- `filepath.Join(a, b)` for an already-clean `a` (no trailing separator)
and `b` (no leading separator): `a` when `b` is empty, otherwise the two
joined by one separator. -/
def joinPath (a b : Str) : Str :=
  if b = [] then a else a ++ sep :: b

/-- `filepath.Dir(p)` for an already-clean `p`: the portion before the last
separator, `"."` when there is no separator, `"/"` when the last separator
is the leading one. -/
def dirOf (p : Str) : Str :=
  match (p.reverse.dropWhile (· ≠ sep)).reverse with
  | [] => [Char.ofNat 46]
  | [c] => [c]
  | pre => pre.dropLast

/-- The strict ancestors of a clean path `p`: every proper prefix of `p`
that ends just before an interior separator (the filesystem root `/` is
excluded; `os.MkdirAll` never creates it). -/
def properAncestors (p : Str) : List Str :=
  ((List.range p.length).filter (fun i => decide (0 < i) && ((p.drop i).head? = some sep))).map (p.take ·)

/-- The local filesystem state the decode loop mutates: regular files as an
association list path ↦ (permission bits, content bytes), and directories as
an association list path ↦ permission bits. Paths are absolute-or-relative
clean strings exactly as the Go code computes them with `filepath.Join`. -/
structure FS where
  files : List (Str × Nat × List Nat)
  dirs : List (Str × Nat)
  deriving Repr, DecidableEq

/-- The empty filesystem (a fresh target area). -/
def FS.empty : FS := ⟨[], []⟩

/-- The file stored at `p`, if any. -/
def lookupFile (fs : FS) (p : Str) : Option (Nat × List Nat) :=
  List.lookup p fs.files

/-- Whether a directory exists at `p`. -/
def isDirAt (fs : FS) (p : Str) : Bool :=
  fs.dirs.any (·.1 = p)

/-- One `mkdir(p, perm)` step as `os.MkdirAll` performs it: a no-op if the
directory already exists, an `ENOTDIR`-style failure if a regular file sits
at `p`, otherwise the directory is created with `perm`. -/
def mkdirOne (fs : FS) (p : Str) (perm : Nat) : Except Str FS :=
  if (lookupFile fs p).isSome then
    .error (str "mkdir " ++ p ++ str ": not a directory")
  else if isDirAt fs p then .ok fs
  else .ok { fs with dirs := fs.dirs ++ [(p, perm)] }

/-- `os.MkdirAll(p, perm)`: create every missing ancestor of `p` and then
`p` itself, shortest first, each with `perm`; existing directories are left
untouched, and a regular file at any of these paths is an error. -/
def mkdirAll (fs : FS) (p : Str) (perm : Nat) : Except Str FS :=
  (properAncestors p ++ [p]).foldlM (fun s q => mkdirOne s q perm) fs

/-- The regular-file branch of the decode loop at `target`:
`os.OpenFile(target, os.O_CREATE|os.O_RDWR, mode)` followed by
`io.Copy(f, tr)`. Opening a directory for writing fails (`EISDIR`); a
missing file is created with `mode`; an existing file keeps its permission
bits (the mode argument only applies at creation) and, because `os.O_TRUNC`
is not passed, the copy overwrites from offset zero leaving any longer tail
of the previous content in place. -/
def writeFileAt (fs : FS) (p : Str) (mode : Nat) (c : List Nat) : Except Str FS :=
  if isDirAt fs p then
    .error (str "open " ++ p ++ str ": is a directory")
  else
    match List.lookup p fs.files with
    | some (m0, c0) =>
        .ok { fs with files := fs.files.map (fun e => if e.1 = p then (p, m0, c ++ c0.drop c.length) else e) }
    | none => .ok { fs with files := fs.files ++ [(p, mode, c)] }

/-- One iteration of `Restore`'s decode loop (cacher.go lines 296-327) on
entry `e` with target directory `dir`: `target := filepath.Join(dir, header.Name)`,
then a directory entry runs `os.MkdirAll(target, 0755)`, a regular-file
entry runs `os.MkdirAll(filepath.Dir(target), 0755)` and writes the file,
and any other typeflag fails with
`fmt.Errorf("unknown header type %v for %s", header.Typeflag, target)`
(`%v` renders the typeflag byte in decimal). -/
def restoreEntry (dir : Str) (fs : FS) (e : Entry) : Except Str FS :=
  let target := joinPath dir e.name
  if e.typeflag = typeDir then
    match mkdirAll fs target 493 with
    | .error m => .error (str "failed to make directory: " ++ m)
    | .ok fs1 => .ok fs1
  else if e.typeflag = typeReg then
    match mkdirAll fs (dirOf target) 493 with
    | .error m => .error (str "failed to make parent directory: " ++ m)
    | .ok fs1 =>
        match writeFileAt fs1 target e.mode e.content with
        | .error m => .error (str "failed to open: " ++ m)
        | .ok fs2 => .ok fs2
  else
    .error (str "unknown header type " ++ (Nat.repr e.typeflag.toNat).data ++
      str " for " ++ target)

/-- `Restore`'s decode loop over the whole entry sequence: entries are
processed in stream order until exhaustion (`io.EOF`, normal termination)
or the first failure, which stops the loop with the filesystem as mutated
so far. -/
def restoreEntries (dir : Str) (fs : FS) : List Entry → FS × Option Str
  | [] => (fs, none)
  | e :: rest =>
      match restoreEntry dir fs e with
      | .error m => (fs, some m)
      | .ok fs1 => restoreEntries dir fs1 rest

/-- The object metadata `Restore` reads: `attrs.Name` (the object name) and
`attrs.Updated` (last-modified instant, modelled as an integer timeline). -/
structure ObjectAttrs where
  name : Str
  updated : Int
  deriving Repr, DecidableEq

/-- Outcome of `bucketHandle.Object(key).Attrs(ctx)`: the attributes, the
sentinel `storage.ErrObjectNotExist`, or any other lookup failure. -/
inductive LookupResult where
  | found (attrs : ObjectAttrs)
  | notExist
  | lookupError (msg : Str)
  deriving Repr, DecidableEq

/-- `Restore`'s key-probing loop (cacher.go lines 212-228) with best-so-far
accumulator `best`: each key is queried in list order; `ErrObjectNotExist`
is skipped; any other lookup failure aborts with
`fmt.Errorf("failed to list attributes for %s: %w", key, err)`; an existing
object replaces the accumulator exactly when there is none yet or its
`Updated` is strictly later (`attrs.Updated.After(match.Updated)`). Returns
the list of keys actually queried together with the outcome. -/
def findMatch (store : Str → LookupResult) : List Str → Option ObjectAttrs → List Str × Except Str (Option ObjectAttrs)
  | [], best => ([], .ok best)
  | k :: rest, best =>
      match store k with
      | .notExist =>
          let r := findMatch store rest best
          (k :: r.1, r.2)
      | .lookupError m =>
          ([k], .error (str "failed to list attributes for " ++ k ++ str ": " ++ m))
      | .found attrs =>
          let best1 := match best with
            | none => some attrs
            | some cur => if cur.updated < attrs.updated then some attrs else some cur
          let r := findMatch store rest best1
          (k :: r.1, r.2)

/-- Hexadecimal digit as `strconv` lowercase hex. -/
def hexDigit (n : Nat) : Char :=
  if n < 10 then Char.ofNat (48 + n) else Char.ofNat (87 + n)

/-- `strconv.Quote`'s escaping of one byte: the two-character escapes for
quote, backslash and the named control characters, printable ASCII
verbatim, and `\xNN` for other control bytes. -/
def goEscapeChar (c : Char) : Str :=
  if c = Char.ofNat 34 then [Char.ofNat 92, Char.ofNat 34]
  else if c = Char.ofNat 92 then [Char.ofNat 92, Char.ofNat 92]
  else if c = Char.ofNat 7 then [Char.ofNat 92, 'a']
  else if c = Char.ofNat 8 then [Char.ofNat 92, 'b']
  else if c = Char.ofNat 12 then [Char.ofNat 92, 'f']
  else if c = Char.ofNat 10 then [Char.ofNat 92, 'n']
  else if c = Char.ofNat 13 then [Char.ofNat 92, 'r']
  else if c = Char.ofNat 9 then [Char.ofNat 92, 't']
  else if c = Char.ofNat 11 then [Char.ofNat 92, 'v']
  else if 32 ≤ c.toNat ∧ c.toNat < 127 then [c]
  else [Char.ofNat 92, 'x', hexDigit (c.toNat / 16 % 16), hexDigit (c.toNat % 16)]

/-- `fmt`'s `%q` of one string. -/
def goQuote (s : Str) : Str :=
  Char.ofNat 34 :: (s.map goEscapeChar).flatten ++ [Char.ofNat 34]

/-- `fmt`'s `%q` of a `[]string`: the quoted elements, space-separated,
in brackets. -/
def quoteKeys (ks : List Str) : Str :=
  '[' :: (List.intersperse (str " ") (ks.map goQuote)).flatten ++ [']']

/-- A byte `%q` passes through verbatim: printable ASCII other than the
quote and backslash characters. -/
def plainChar (c : Char) : Bool :=
  32 ≤ c.toNat && c.toNat < 127 && c ≠ Char.ofNat 34 && c ≠ Char.ofNat 92

/-- One deferred close handler: the update it applies to the named result
`retErr` of `Save`/`Restore` (cacher.go lines 84-92, 100-108, 112-120,
248-256, 264-272). A successful close leaves `retErr` alone; a failing
close chains itself after an already-present error
(`fmt.Errorf("%v: failed to close <what>: %w", retErr, cerr)`) or becomes
the error (`fmt.Errorf("failed to close <what>: %w", cerr)`). -/
def applyClose (what : Str) (cerr : Option Str) (retErr : Option Str) : Option Str :=
  match cerr with
  | none => retErr
  | some c =>
      match retErr with
      | some r => some (r ++ str ": failed to close " ++ what ++ str ": " ++ c)
      | none => some (str "failed to close " ++ what ++ str ": " ++ c)

/-- Go's `defer` stack: handlers listed in registration (acquisition) order
run last-in-first-out over the named result. -/
def runDefers : List (Option Str → Option Str) → Option Str → Option Str
  | [], retErr => retErr
  | d :: rest, retErr => d (runDefers rest retErr)

/-- `SaveRequest` (cacher.go lines 44-53). -/
structure SaveRequest where
  Bucket : Str
  Key : Str
  Dir : Str
  deriving Repr, DecidableEq

/-- `RestoreRequest` (cacher.go lines 172-181). -/
structure RestoreRequest where
  Bucket : Str
  Keys : List Str
  Dir : Str
  deriving Repr, DecidableEq

/-- Injected close outcomes for `Save`'s three stream closers (gcs writer,
gzip writer, tar writer): `none` models a clean close. -/
structure SaveCloses where
  tw : Option Str
  gzw : Option Str
  gcsw : Option Str
  deriving Repr, DecidableEq

/-- Injected close outcomes for `Restore`'s two stream closers. -/
structure RestoreCloses where
  gzr : Option Str
  gcsr : Option Str
  deriving Repr, DecidableEq

/-- `Cacher.Save` (cacher.go lines 56-169). `tree` is the directory listing
of `i.Dir` on disk (the walk of a readable tree succeeds, and
`gzip.NewWriterLevel` cannot fail at `gzip.BestCompression`, so the body
error is `none` past validation). Returns the final `retErr` after the
three deferred closes run in reverse-acquisition order, together with the
objects published to the store — the archive appears at `i.Key` exactly
when the gcs writer's close (which finalizes the upload) succeeds. -/
def Save (tree : List (Str × FSNode)) (closes : SaveCloses) (req : Option SaveRequest) : Option Str × List (Str × List Entry) :=
  match req with
  | none => (some (str "missing cache options"), [])
  | some i =>
      if i.Bucket = [] then (some (str "missing bucket"), [])
      else if i.Dir = [] then (some (str "missing directory"), [])
      else if i.Key = [] then (some (str "missing key"), [])
      else
        let entries := saveEntries i.Dir tree
        let ret := runDefers
          [applyClose (str "gcs writer") closes.gcsw,
           applyClose (str "gzip writer") closes.gzw,
           applyClose (str "tar writer") closes.tw] none
        (ret, if closes.gcsw = none then [(i.Key, entries)] else [])

/-- `Cacher.Restore` (cacher.go lines 184-335). `store` answers the
metadata probes, `objects` is the decoded content of existing objects
(`none` makes `NewReader` fail), `fs` is the local filesystem. Returns the
filesystem after the operation, the final `retErr` after the deferred
closes, and the list of keys whose metadata was queried. -/
def Restore (store : Str → LookupResult) (objects : Str → Option (List Entry))
    (fs : FS) (closes : RestoreCloses) (req : Option RestoreRequest) :
    FS × Option Str × List Str :=
  match req with
  | none => (fs, some (str "missing cache options"), [])
  | some i =>
      if i.Bucket = [] then (fs, some (str "missing bucket"), [])
      else if i.Dir = [] then (fs, some (str "missing directory"), [])
      else if i.Keys.length < 1 then (fs, some (str "expected at least one cache key"), [])
      else
        let probe := findMatch store i.Keys none
        match probe.2 with
        | .error m => (fs, some m, probe.1)
        | .ok none =>
            (fs, some (str "failed to find cached objects among keys " ++ quoteKeys i.Keys), probe.1)
        | .ok (some best) =>
            match mkdirAll fs i.Dir 493 with
            | .error m => (fs, some (str "failed to make target directory: " ++ m), probe.1)
            | .ok fs1 =>
                match objects best.name with
                | none => (fs1, some (str "failed to create object reader: storage: object does not exist"), probe.1)
                | some entries =>
                    let dec := restoreEntries i.Dir fs1 entries
                    let body := dec.2.map (fun m => str "failed to download file: " ++ m)
                    let ret := runDefers
                      [applyClose (str "gcs reader") closes.gcsr,
                       applyClose (str "gzip reader") closes.gzr] body
                    (dec.1, ret, probe.1)

/-- The relative path the specification describes for an archived file: the
full path with the leading root-directory prefix removed
(`strings.TrimPrefix`-style, only at the front) and any single leading path
separator stripped. Stated from the spec's words, to be compared with the
source's `tarEntryName`. -/
def specRelPath (dir name : Str) : Str :=
  trimPrefix [sep] (trimPrefix dir name)

/-- Some key of `l` resolves to attributes `a`. -/
def FoundIn (store : Str → LookupResult) (l : List Str) (a : ObjectAttrs) : Prop :=
  ∃ k ∈ l, store k = .found a

/-- `a` is the selection the claim describes for candidate list `keys`:
it belongs to some key of the list, its timestamp is a maximum over every
existing candidate, and every existing candidate strictly before that key
has a strictly older timestamp (so, among ties for the maximum, the
earliest listed key wins). -/
def SelectedFrom (store : Str → LookupResult) (keys : List Str) (a : ObjectAttrs) : Prop :=
  ∃ l1 k l2, keys = l1 ++ k :: l2 ∧ store k = .found a ∧
    (∀ b, FoundIn store keys b → b.updated ≤ a.updated) ∧
    (∀ b, FoundIn store l1 b → b.updated < a.updated)

/-- Well-formedness of a directory listing as a real filesystem provides
it: child names are non-empty, contain no separator, and are distinct among
siblings, recursively. -/
def wfList : List (Str × FSNode) → Prop
  | [] => True
  | (n, FSNode.dir cs) :: rest =>
      n ≠ [] ∧ sep ∉ n ∧ (∀ p ∈ rest, p.1 ≠ n) ∧ wfList cs ∧ wfList rest
  | (n, _) :: rest => n ≠ [] ∧ sep ∉ n ∧ (∀ p ∈ rest, p.1 ≠ n) ∧ wfList rest
termination_by cs => sizeOf cs

/-- Two relative paths that denote genuinely different filesystem objects:
they differ, and neither extended by a separator is a prefix of the other
(no file sits on the directory chain of another). -/
def PathSep (r1 r2 : Str) : Prop :=
  r1 ≠ r2 ∧ ¬ (r1 ++ [sep]) <+: r2 ∧ ¬ (r2 ++ [sep]) <+: r1

/-- The first path component: everything before the first separator. -/
def firstComp (r : Str) : Str := r.takeWhile (· ≠ sep)

/-! ## Lemmas about the path mangling of `Save` -/

theorem replaceAll_nil (old : Str) : replaceAll [] old = [] := by
  rw [replaceAll]
  by_cases h : old = []
  · simp [h]
  · have : ¬ old.isPrefixOf ([] : Str) := by
      simp [List.isPrefixOf_iff_prefix, List.prefix_nil, h]
    simp [h, this]

theorem replaceAll_drop_leading (t old : Str) (h : old ≠ []) :
    replaceAll (old ++ t) old = replaceAll t old := by
  rw [replaceAll]
  have hp : old.isPrefixOf (old ++ t) := by
    simp [List.isPrefixOf_iff_prefix]
  simp [h, hp]

theorem replaceAll_of_not_infix (t old : Str) (h : ¬ old <:+: t) :
    replaceAll t old = t := by
  induction t with
  | nil => exact replaceAll_nil old
  | cons c rest ih =>
      have hne : old ≠ [] := by
        rintro rfl
        exact h List.nil_infix
      have hpre : ¬ old.isPrefixOf (c :: rest) := by
        simp only [List.isPrefixOf_iff_prefix]
        intro hp
        exact h hp.isInfix
      rw [replaceAll]
      simp only [hne, hpre, if_false]
      have hrest : ¬ old <:+: rest := fun hi => h (List.infix_cons hi)
      rw [ih hrest]
      simp

/-- The entry name computed for a file at `dir ++ sep :: t` when the root
string does not reoccur in `sep :: t`: exactly the relative path. -/
theorem tarEntryName_join (dir t : Str) (hd : dir ≠ []) (h : ¬ dir <:+: sep :: t) :
    tarEntryName dir (dir ++ sep :: t) = t := by
  unfold tarEntryName
  rw [replaceAll_drop_leading _ _ hd, replaceAll_of_not_infix _ _ h]
  have : ([sep] : Str).isPrefixOf (sep :: t) := by
    simp [List.isPrefixOf_iff_prefix]
  simp [trimPrefix, this]

/-! ## The shape of `Save`'s archive -/

/-- The walk emits exactly one regular-file entry per regular file of the
subtree, in walk order, with the mangled name, the file's permission bits
and its content. -/
theorem walkEntries_eq_relFiles : ∀ (dir pfx : Str) (cs : List (Str × FSNode)),
    walkEntries dir pfx cs =
      (relFiles cs).map (fun p => ⟨tarEntryName dir (pfx ++ sep :: p.1), typeReg, p.2.1, p.2.2⟩)
  | _, _, [] => by simp [walkEntries, relFiles]
  | dir, pfx, (n, FSNode.file m c) :: rest => by
      rw [walkEntries, relFiles]
      rw [walkEntries_eq_relFiles dir pfx rest]
      simp
  | dir, pfx, (n, FSNode.dir cs2) :: rest => by
      rw [walkEntries, relFiles]
      rw [walkEntries_eq_relFiles dir (pfx ++ sep :: n) cs2,
        walkEntries_eq_relFiles dir pfx rest]
      simp only [List.map_append, List.map_map]
      congr 1
      apply List.map_congr_left
      intro p _
      simp only [Function.comp]
      congr 2
      simp [List.append_assoc]
  | dir, pfx, (n, FSNode.symlink) :: rest => by
      rw [walkEntries, relFiles]
      exact walkEntries_eq_relFiles dir pfx rest
  | dir, pfx, (n, FSNode.special) :: rest => by
      rw [walkEntries, relFiles]
      exact walkEntries_eq_relFiles dir pfx rest
termination_by dir pfx cs => sizeOf cs

/-! ## Claim theorems -/

/-- C7: `Save`'s archive construction produces one entry for every regular
file beneath the root, recursively, in walk order (first conjunct: the
archive is exactly the image of the subtree's regular files), and a
non-regular filesystem object produces neither an entry nor an error: a
directory holding two regular files and one symlink archives to exactly two
entries, and a full `Save` over it succeeds with no error (third conjunct). -/
theorem save_archives_exactly_regular_files :
    (∀ (dir : Str) (cs : List (Str × FSNode)),
      saveEntries dir cs =
        (relFiles cs).map (fun p => ⟨tarEntryName dir (dir ++ sep :: p.1), typeReg, p.2.1, p.2.2⟩)) ∧
    (saveEntries (str "/c")
      [(str "f1", FSNode.file 420 [1]), (str "ln", FSNode.symlink),
       (str "f2", FSNode.file 420 [2])]).length = 2 ∧
    (Save [(str "f1", FSNode.file 420 [1]), (str "ln", FSNode.symlink),
       (str "f2", FSNode.file 420 [2])] ⟨none, none, none⟩
      (some ⟨str "b", str "k", str "/c"⟩)).1 = none := by
  refine ⟨fun dir cs => walkEntries_eq_relFiles dir dir cs, ?_, ?_⟩
  · simp [saveEntries, walkEntries, relFiles, str]
  · simp [Save, str, runDefers, applyClose]

/-- C8: `Save` rejects an empty bucket, directory or key with a validation
error before touching the store (no object is published), and `Restore`
rejects an empty bucket, directory or key list likewise before any store
interaction (no key is probed, the filesystem is untouched). -/
theorem validation_rejects_empty_fields :
    (∀ (tree : List (Str × FSNode)) (closes : SaveCloses) (i : SaveRequest),
      i.Bucket = [] ∨ i.Dir = [] ∨ i.Key = [] →
      ∃ m, Save tree closes (some i) = (some m, []) ∧
        (m = str "missing bucket" ∨ m = str "missing directory" ∨ m = str "missing key")) ∧
    (∀ (store : Str → LookupResult) (objects : Str → Option (List Entry))
      (fs : FS) (closes : RestoreCloses) (i : RestoreRequest),
      i.Bucket = [] ∨ i.Dir = [] ∨ i.Keys = [] →
      ∃ m, Restore store objects fs closes (some i) = (fs, some m, []) ∧
        (m = str "missing bucket" ∨ m = str "missing directory" ∨
          m = str "expected at least one cache key")) := by
  constructor
  · intro tree closes i h
    by_cases hb : i.Bucket = []
    · exact ⟨_, by simp [Save, hb], Or.inl rfl⟩
    · by_cases hd : i.Dir = []
      · exact ⟨_, by simp [Save, hb, hd], Or.inr (Or.inl rfl)⟩
      · have hk : i.Key = [] := by tauto
        exact ⟨_, by simp [Save, hb, hd, hk], Or.inr (Or.inr rfl)⟩
  · intro store objects fs closes i h
    by_cases hb : i.Bucket = []
    · exact ⟨_, by simp [Restore, hb], Or.inl rfl⟩
    · by_cases hd : i.Dir = []
      · exact ⟨_, by simp [Restore, hb, hd], Or.inr (Or.inl rfl)⟩
      · have hk : i.Keys = [] := by tauto
        exact ⟨_, by simp [Restore, hb, hd, hk], Or.inr (Or.inr rfl)⟩

/-- C8 witness: concrete empty-field requests are rejected. -/
theorem validation_rejects_empty_fields_witness :
    ∃ m, Save [] ⟨none, none, none⟩ (some ⟨str "b", [], str "/c"⟩) = (some m, []) ∧
      (m = str "missing bucket" ∨ m = str "missing directory" ∨ m = str "missing key") :=
  validation_rejects_empty_fields.1 [] ⟨none, none, none⟩ ⟨str "b", [], str "/c"⟩
    (Or.inr (Or.inr rfl))

/-- C4 counterexample: for root directory `/a` and the file `/a/a/x` (the
file `a/x` inside the tree), the code records entry path `x`, while the
path with exactly the leading prefix and one separator stripped is `a/x`:
`strings.Replace(..., -1)` also removed the interior occurrence of `/a`. -/
theorem entry_path_not_only_prefix_stripped :
    tarEntryName (str "/a") (str "/a/a/x") = str "x" ∧
    specRelPath (str "/a") (str "/a/a/x") = str "a/x" ∧
    (str "x" : Str) ≠ str "a/x" := by
  refine ⟨?_, ?_, by decide⟩ <;>
    simp [tarEntryName, specRelPath, replaceAll, trimPrefix, sep, str]

/-- C4 (amended): the entry's recorded path equals the file's path with the
leading root-directory prefix and a single leading separator stripped
whenever the root string does not reoccur in the remainder of the path; in
general the code removes every (non-overlapping, left-to-right) occurrence
of the root string, not only the leading one. -/
theorem entry_path_is_relative_when_root_unique (dir name : Str)
    (hd : dir ≠ []) (hpre : dir <+: name) (h : ¬ dir <:+: name.drop dir.length) :
    tarEntryName dir name = specRelPath dir name := by
  obtain ⟨t, rfl⟩ := hpre
  rw [List.drop_left] at h
  unfold tarEntryName specRelPath
  rw [replaceAll_drop_leading _ _ hd, replaceAll_of_not_infix _ _ h]
  have ht : trimPrefix dir (dir ++ t) = t := by
    have : dir.isPrefixOf (dir ++ t) := by simp [List.isPrefixOf_iff_prefix]
    simp [trimPrefix, this, List.drop_left]
  rw [ht]

/-- C4 witness: a concrete path where the root occurs only as the prefix. -/
theorem entry_path_is_relative_when_root_unique_witness :
    tarEntryName (str "/a") (str "/a/b/c") = specRelPath (str "/a") (str "/a/b/c") :=
  entry_path_is_relative_when_root_unique (str "/a") (str "/a/b/c") (by decide)
    ⟨str "/b/c", rfl⟩ (by decide)

/-- Decoding a sequence of regular-file entries either succeeds or fails
inside the regular-file branch (parent-directory creation or the file
open/copy); never with the directory branch's or the unknown-type message. -/
theorem restoreEntries_all_reg (targ : Str) (entries : List Entry) (fs : FS)
    (h : ∀ e ∈ entries, e.typeflag = typeReg) :
    (restoreEntries targ fs entries).2 = none ∨
    (∃ m, (restoreEntries targ fs entries).2 = some (str "failed to make parent directory: " ++ m)) ∨
    (∃ m, (restoreEntries targ fs entries).2 = some (str "failed to open: " ++ m)) := by
  induction entries generalizing fs with
  | nil => exact Or.inl rfl
  | cons e rest ih =>
      have he := h e (by simp)
      rw [restoreEntries]
      unfold restoreEntry
      rw [he]
      have h1 : (typeReg = typeDir) = False := by simp [typeReg, typeDir]
      simp only [h1, if_false, if_pos rfl]
      cases hm : mkdirAll fs (dirOf (joinPath targ e.name)) 493 with
      | error m => refine Or.inr (Or.inl ⟨m, ?_⟩); simp
      | ok fs1 =>
          cases hw : writeFileAt fs1 (joinPath targ e.name) e.mode e.content with
          | error m => refine Or.inr (Or.inr ⟨m, ?_⟩); simp [hw]
          | ok fs2 =>
              have := ih fs2 (fun e' he' => h e' (List.mem_cons_of_mem _ he'))
              simpa [hw] using this

/-- C10: every archive `Save` produces consists solely of regular-file
entries — never a directory entry (first conjunct); an empty directory
leaves no trace in the archive (third conjunct); and decoding a
self-produced archive exercises only the regular-file branch of the decode
loop: it either succeeds through lazy parent-directory creation or fails
inside that branch, never through the directory branch or the
unknown-entry-type failure (second conjunct). -/
theorem archives_contain_only_regular_entries :
    (∀ (dir : Str) (cs : List (Str × FSNode)) (e : Entry),
      e ∈ saveEntries dir cs → e.typeflag = typeReg) ∧
    (∀ (targ dir : Str) (cs : List (Str × FSNode)) (fs : FS),
      (restoreEntries targ fs (saveEntries dir cs)).2 = none ∨
      (∃ m, (restoreEntries targ fs (saveEntries dir cs)).2 =
        some (str "failed to make parent directory: " ++ m)) ∨
      (∃ m, (restoreEntries targ fs (saveEntries dir cs)).2 =
        some (str "failed to open: " ++ m))) ∧
    saveEntries (str "/c") [(str "e", FSNode.dir [])] = [] := by
  have honly : ∀ (dir : Str) (cs : List (Str × FSNode)) (e : Entry),
      e ∈ saveEntries dir cs → e.typeflag = typeReg := by
    intro dir cs e he
    rw [saveEntries, walkEntries_eq_relFiles] at he
    obtain ⟨p, -, rfl⟩ := List.mem_map.mp he
    rfl
  refine ⟨honly, fun targ dir cs fs => restoreEntries_all_reg targ _ fs (honly dir cs), ?_⟩
  simp [saveEntries, walkEntries, str]

/-- C10 witness: a concrete archived file's entry is a regular-file entry,
and a concrete self-produced archive decodes through the regular-file
branch only. -/
theorem archives_contain_only_regular_entries_witness :
    (⟨str "x", typeReg, 420, ([] : List Nat)⟩ : Entry).typeflag = typeReg ∧
    ((restoreEntries (str "/t") FS.empty
        (saveEntries (str "/c") [(str "x", FSNode.file 420 [])])).2 = none ∨
      (∃ m, (restoreEntries (str "/t") FS.empty
        (saveEntries (str "/c") [(str "x", FSNode.file 420 [])])).2 =
          some (str "failed to make parent directory: " ++ m)) ∨
      (∃ m, (restoreEntries (str "/t") FS.empty
        (saveEntries (str "/c") [(str "x", FSNode.file 420 [])])).2 =
          some (str "failed to open: " ++ m))) :=
  ⟨archives_contain_only_regular_entries.1 (str "/c") [(str "x", FSNode.file 420 [])]
      ⟨str "x", typeReg, 420, []⟩
      (by simp [saveEntries, walkEntries, tarEntryName, replaceAll, trimPrefix, sep, str, typeReg]),
    archives_contain_only_regular_entries.2.1 (str "/t") (str "/c")
      [(str "x", FSNode.file 420 [])] FS.empty⟩

/-! ## The key-probing loop -/

theorem findMatch_completes (store : Str → LookupResult) :
    ∀ (keys : List Str) (best : Option ObjectAttrs),
    (∀ k ∈ keys, ∀ m, store k ≠ .lookupError m) →
    (findMatch store keys best).1 = keys ∧ ∃ r, (findMatch store keys best).2 = .ok r := by
  intro keys
  induction keys with
  | nil => exact fun best _ => ⟨rfl, _, rfl⟩
  | cons k rest ih =>
      intro best h
      cases hk : store k with
      | notExist =>
          have := ih best (fun k' hk' => h k' (List.mem_cons_of_mem _ hk'))
          simpa [findMatch, hk] using this
      | lookupError m => exact absurd hk (h k (by simp) m)
      | found attrs =>
          have := ih (match best with
            | none => some attrs
            | some cur => if cur.updated < attrs.updated then some attrs else some cur)
            (fun k' hk' => h k' (List.mem_cons_of_mem _ hk'))
          simpa [findMatch, hk] using this

theorem findMatch_aborts (store : Str → LookupResult) :
    ∀ (l1 : List Str) (kbad : Str) (l2 : List Str) (best : Option ObjectAttrs) (em : Str),
    (∀ k ∈ l1, ∀ m, store k ≠ .lookupError m) →
    store kbad = .lookupError em →
    findMatch store (l1 ++ kbad :: l2) best =
      (l1 ++ [kbad], .error (str "failed to list attributes for " ++ kbad ++ str ": " ++ em)) := by
  intro l1
  induction l1 with
  | nil => intro kbad l2 best em _ hbad; simp [findMatch, hbad]
  | cons k rest ih =>
      intro kbad l2 best em h hbad
      cases hk : store k with
      | notExist =>
          have := ih kbad l2 best em (fun k' hk' => h k' (List.mem_cons_of_mem _ hk')) hbad
          simp [findMatch, hk, this]
      | lookupError m => exact absurd hk (h k (by simp) m)
      | found attrs =>
          have := ih kbad l2 (match best with
            | none => some attrs
            | some cur => if cur.updated < attrs.updated then some attrs else some cur)
            em (fun k' hk' => h k' (List.mem_cons_of_mem _ hk')) hbad
          simp [findMatch, hk, this]

theorem findMatch_all_missing (store : Str → LookupResult) :
    ∀ (keys : List Str) (best : Option ObjectAttrs),
    (∀ k ∈ keys, store k = .notExist) →
    findMatch store keys best = (keys, .ok best) := by
  intro keys
  induction keys with
  | nil => exact fun best _ => rfl
  | cons k rest ih =>
      intro best h
      have hk := h k (by simp)
      have := ih best (fun k' hk' => h k' (List.mem_cons_of_mem _ hk'))
      simp [findMatch, hk, this]

theorem findMatch_sel_some (store : Str → LookupResult) :
    ∀ (keys : List Str) (cur : ObjectAttrs),
    (∀ k ∈ keys, ∀ m, store k ≠ .lookupError m) →
    ((findMatch store keys (some cur)).2 = .ok (some cur) ∧
      (∀ b, FoundIn store keys b → b.updated ≤ cur.updated)) ∨
    (∃ a, (findMatch store keys (some cur)).2 = .ok (some a) ∧ cur.updated < a.updated ∧
      ∃ l1 k l2, keys = l1 ++ k :: l2 ∧ store k = .found a ∧
        (∀ b, FoundIn store keys b → b.updated ≤ a.updated) ∧
        (∀ b, FoundIn store l1 b → b.updated < a.updated)) := by
  intro keys
  induction keys with
  | nil =>
      intro cur _
      exact Or.inl ⟨rfl, fun b hb => absurd hb (by simp [FoundIn])⟩
  | cons k rest ih =>
      intro cur h
      have hrest : ∀ k' ∈ rest, ∀ m, store k' ≠ .lookupError m :=
        fun k' hk' => h k' (List.mem_cons_of_mem _ hk')
      cases hk : store k with
      | lookupError m => exact absurd hk (h k (by simp) m)
      | notExist =>
          have hcons : ∀ b, FoundIn store (k :: rest) b → FoundIn store rest b := by
            rintro b ⟨k', hk', hb⟩
            rcases List.mem_cons.mp hk' with rfl | hk''
            · rw [hk] at hb; cases hb
            · exact ⟨k', hk'', hb⟩
          rcases ih cur hrest with ⟨heq, hle⟩ | ⟨a, heq, hlt, l1, k1, l2, hdec, hk1, hall, hbefore⟩
          · exact Or.inl ⟨by simpa [findMatch, hk] using heq,
              fun b hb => hle b (hcons b hb)⟩
          · refine Or.inr ⟨a, by simpa [findMatch, hk] using heq, hlt,
              k :: l1, k1, l2, by simp [hdec], hk1,
              fun b hb => hall b (hcons b hb), ?_⟩
            rintro b ⟨k', hk', hb⟩
            rcases List.mem_cons.mp hk' with rfl | hk''
            · rw [hk] at hb; cases hb
            · exact hbefore b ⟨k', hk'', hb⟩
      | found attrs =>
          have hsplit : ∀ b, FoundIn store (k :: rest) b → b = attrs ∨ FoundIn store rest b := by
            rintro b ⟨k', hk', hb⟩
            rcases List.mem_cons.mp hk' with rfl | hk''
            · rw [hk] at hb; exact Or.inl (by cases hb; rfl)
            · exact Or.inr ⟨k', hk'', hb⟩
          by_cases hcmp : cur.updated < attrs.updated
          · rcases ih attrs hrest with ⟨heq, hle⟩ | ⟨a, heq, hlt, l1, k1, l2, hdec, hk1, hall, hbefore⟩
            · refine Or.inr ⟨attrs, by simpa [findMatch, hk, hcmp] using heq, hcmp,
                [], k, rest, by simp, hk, ?_, by simp [FoundIn]⟩
              intro b hb
              rcases hsplit b hb with rfl | hb'
              · exact le_refl _
              · exact hle b hb'
            · refine Or.inr ⟨a, by simpa [findMatch, hk, hcmp] using heq,
                lt_trans hcmp hlt, k :: l1, k1, l2, by simp [hdec], hk1, ?_, ?_⟩
              · intro b hb
                rcases hsplit b hb with rfl | hb'
                · exact le_of_lt hlt
                · exact hall b hb'
              · rintro b ⟨k', hk', hb⟩
                rcases List.mem_cons.mp hk' with rfl | hk''
                · rw [hk] at hb; cases hb; exact hlt
                · exact hbefore b ⟨k', hk'', hb⟩
          · have hle' : attrs.updated ≤ cur.updated := le_of_not_lt hcmp
            rcases ih cur hrest with ⟨heq, hle⟩ | ⟨a, heq, hlt, l1, k1, l2, hdec, hk1, hall, hbefore⟩
            · refine Or.inl ⟨by simpa [findMatch, hk, hcmp] using heq, ?_⟩
              intro b hb
              rcases hsplit b hb with rfl | hb'
              · exact hle'
              · exact hle b hb'
            · refine Or.inr ⟨a, by simpa [findMatch, hk, hcmp] using heq, hlt,
                k :: l1, k1, l2, by simp [hdec], hk1, ?_, ?_⟩
              · intro b hb
                rcases hsplit b hb with rfl | hb'
                · exact le_of_lt (lt_of_le_of_lt hle' hlt)
                · exact hall b hb'
              · rintro b ⟨k', hk', hb⟩
                rcases List.mem_cons.mp hk' with rfl | hk''
                · rw [hk] at hb; cases hb; exact lt_of_le_of_lt hle' hlt
                · exact hbefore b ⟨k', hk'', hb⟩

theorem findMatch_sel (store : Str → LookupResult) :
    ∀ (keys : List Str),
    (∀ k ∈ keys, ∀ m, store k ≠ .lookupError m) →
    ((findMatch store keys none).2 = .ok none ∧ ∀ b, ¬ FoundIn store keys b) ∨
    (∃ a, (findMatch store keys none).2 = .ok (some a) ∧ SelectedFrom store keys a) := by
  intro keys
  induction keys with
  | nil => exact fun _ => Or.inl ⟨rfl, by simp [FoundIn]⟩
  | cons k rest ih =>
      intro h
      have hrest : ∀ k' ∈ rest, ∀ m, store k' ≠ .lookupError m :=
        fun k' hk' => h k' (List.mem_cons_of_mem _ hk')
      cases hk : store k with
      | lookupError m => exact absurd hk (h k (by simp) m)
      | notExist =>
          have hcons : ∀ b, FoundIn store (k :: rest) b → FoundIn store rest b := by
            rintro b ⟨k', hk', hb⟩
            rcases List.mem_cons.mp hk' with rfl | hk''
            · rw [hk] at hb; cases hb
            · exact ⟨k', hk'', hb⟩
          rcases ih hrest with ⟨heq, hnone⟩ | ⟨a, heq, l1, k1, l2, hdec, hk1, hall, hbefore⟩
          · exact Or.inl ⟨by simpa [findMatch, hk] using heq,
              fun b hb => hnone b (hcons b hb)⟩
          · refine Or.inr ⟨a, by simpa [findMatch, hk] using heq,
              k :: l1, k1, l2, by simp [hdec], hk1,
              fun b hb => hall b (hcons b hb), ?_⟩
            rintro b ⟨k', hk', hb⟩
            rcases List.mem_cons.mp hk' with rfl | hk''
            · rw [hk] at hb; cases hb
            · exact hbefore b ⟨k', hk'', hb⟩
      | found attrs =>
          have hsplit : ∀ b, FoundIn store (k :: rest) b → b = attrs ∨ FoundIn store rest b := by
            rintro b ⟨k', hk', hb⟩
            rcases List.mem_cons.mp hk' with rfl | hk''
            · rw [hk] at hb; exact Or.inl (by cases hb; rfl)
            · exact Or.inr ⟨k', hk'', hb⟩
          rcases findMatch_sel_some store rest attrs hrest with
            ⟨heq, hle⟩ | ⟨a, heq, hlt, l1, k1, l2, hdec, hk1, hall, hbefore⟩
          · refine Or.inr ⟨attrs, by simpa [findMatch, hk] using heq,
              [], k, rest, by simp, hk, ?_, by simp [FoundIn]⟩
            intro b hb
            rcases hsplit b hb with rfl | hb'
            · exact le_refl _
            · exact hle b hb'
          · refine Or.inr ⟨a, by simpa [findMatch, hk] using heq,
              k :: l1, k1, l2, by simp [hdec], hk1, ?_, ?_⟩
            · intro b hb
              rcases hsplit b hb with rfl | hb'
              · exact le_of_lt hlt
              · exact hall b hb'
            · rintro b ⟨k', hk', hb⟩
              rcases List.mem_cons.mp hk' with rfl | hk''
              · rw [hk] at hb; cases hb; exact hlt
              · exact hbefore b ⟨k', hk'', hb⟩

/-- C2: when every probe either finds its object or reports not-exist, and
at least one candidate exists, the probing loop selects attributes
belonging to some key of the list whose timestamp is greatest among all
existing candidates, and strictly greater than that of every existing
candidate listed earlier — so among equal latest timestamps the earliest
listed key wins. -/
theorem restore_selects_freshest_earliest (store : Str → LookupResult) (keys : List Str)
    (hok : ∀ k ∈ keys, ∀ m, store k ≠ .lookupError m)
    (hex : ∃ k ∈ keys, ∃ a, store k = .found a) :
    ∃ a, (findMatch store keys none).2 = .ok (some a) ∧ SelectedFrom store keys a := by
  rcases findMatch_sel store keys hok with ⟨-, hnone⟩ | h
  · obtain ⟨k, hk, a, ha⟩ := hex
    exact absurd ⟨k, hk, ha⟩ (hnone a)
  · exact h

/-- C2 witness: keys `[z, a, b]` where `z` is missing and `a`, `b` both
exist with the same timestamp: the loop selects the earliest tie, `a`. -/
theorem restore_selects_freshest_earliest_witness :
    ∃ a, (findMatch
        (fun k => if k = str "a" then .found ⟨str "a", 5⟩
          else if k = str "b" then .found ⟨str "b", 5⟩ else .notExist)
        [str "z", str "a", str "b"] none).2 = .ok (some a) ∧
      SelectedFrom
        (fun k => if k = str "a" then .found ⟨str "a", 5⟩
          else if k = str "b" then .found ⟨str "b", 5⟩ else .notExist)
        [str "z", str "a", str "b"] a :=
  restore_selects_freshest_earliest _ _
    (by intro k hk m; fin_cases hk <;> simp [str])
    ⟨str "a", by simp [str], ⟨str "a", 5⟩, by simp [str]⟩

/-- C5: during the probing loop, keys are queried in list order: a
not-exist answer is skipped and probing continues (first two conjuncts:
with no failing lookup every key is queried, in order, and the loop
completes normally), while any other lookup failure stops the loop at that
key — nothing after it is queried — and aborts the whole `Restore` with an
error naming the failing key, leaving the filesystem untouched (third
conjunct). -/
theorem probe_skips_missing_aborts_on_failure :
    (∀ (store : Str → LookupResult) (keys : List Str) (best : Option ObjectAttrs),
      (∀ k ∈ keys, ∀ m, store k ≠ .lookupError m) →
      (findMatch store keys best).1 = keys ∧ ∃ r, (findMatch store keys best).2 = .ok r) ∧
    (∀ (store : Str → LookupResult) (l1 : List Str) (kbad : Str) (l2 : List Str)
        (best : Option ObjectAttrs) (em : Str),
      (∀ k ∈ l1, ∀ m, store k ≠ .lookupError m) → store kbad = .lookupError em →
      findMatch store (l1 ++ kbad :: l2) best =
        (l1 ++ [kbad], .error (str "failed to list attributes for " ++ kbad ++ str ": " ++ em))) ∧
    (∀ (store : Str → LookupResult) (objects : Str → Option (List Entry)) (fs : FS)
        (closes : RestoreCloses) (i : RestoreRequest) (l1 : List Str) (kbad : Str)
        (l2 : List Str) (em : Str),
      i.Bucket ≠ [] → i.Dir ≠ [] → i.Keys = l1 ++ kbad :: l2 →
      (∀ k ∈ l1, ∀ m, store k ≠ .lookupError m) → store kbad = .lookupError em →
      Restore store objects fs closes (some i) =
        (fs, some (str "failed to list attributes for " ++ kbad ++ str ": " ++ em),
          l1 ++ [kbad])) := by
  refine ⟨findMatch_completes, findMatch_aborts, ?_⟩
  intro store objects fs closes i l1 kbad l2 em hb hd hkeys h1 hbad
  have habort := findMatch_aborts store l1 kbad l2 none em h1 hbad
  have hlen : ¬ (i.Keys.length < 1) := by rw [hkeys]; simp
  simp [Restore, hb, hd, hlen, hkeys, habort]

/-- C5 witness: a concrete probe where a missing key is skipped and a
failing key aborts the operation, leaving later keys unqueried. -/
theorem probe_skips_missing_aborts_on_failure_witness :
    Restore (fun k => if k = str "bad" then .lookupError (str "boom") else .notExist)
      (fun _ => none) FS.empty ⟨none, none⟩
      (some ⟨str "b", [str "z", str "bad", str "after"], str "/t"⟩) =
      (FS.empty,
        some (str "failed to list attributes for " ++ str "bad" ++ str ": " ++ str "boom"),
        [str "z"] ++ [str "bad"]) :=
  probe_skips_missing_aborts_on_failure.2.2 _ _ FS.empty ⟨none, none⟩
    ⟨str "b", [str "z", str "bad", str "after"], str "/t"⟩
    [str "z"] (str "bad") [str "after"] (str "boom")
    (by decide) (by decide) rfl
    (by intro k hk m; fin_cases hk; simp [str]) (by simp [str])

/-! ## The cache-miss message -/

theorem infix_append_left {l x : Str} (y : Str) (h : l <:+: x) : l <:+: y ++ x := by
  obtain ⟨s, t, hst⟩ := h
  exact ⟨y ++ s, t, by rw [← hst]; simp⟩

theorem intersperse_cons_cons (s a b : Str) (t : List Str) :
    List.intersperse s (a :: b :: t) = a :: s :: List.intersperse s (b :: t) := rfl

theorem mem_infix_intersperse_flatten (s : Str) :
    ∀ (L : List Str) (l : Str), l ∈ L → l <:+: (List.intersperse s L).flatten := by
  intro L
  induction L with
  | nil => simp
  | cons a rest ih =>
      intro l hl
      rcases List.mem_cons.mp hl with rfl | hl'
      · cases rest with
        | nil => simp [List.intersperse]
        | cons b t =>
            rw [intersperse_cons_cons]
            simp only [List.flatten_cons]
            exact ((List.prefix_append l _).isInfix).trans (List.infix_refl _)
      · cases rest with
        | nil => cases hl'
        | cons b t =>
            rw [intersperse_cons_cons]
            simp only [List.flatten_cons]
            rw [← List.append_assoc]
            exact infix_append_left _ (ih l hl')

theorem goEscapeChar_plain {c : Char} (h : plainChar c = true) : goEscapeChar c = [c] := by
  by_cases h34 : c = Char.ofNat 34
  · subst h34; exact absurd h (by decide)
  by_cases h92 : c = Char.ofNat 92
  · subst h92; exact absurd h (by decide)
  by_cases h7 : c = Char.ofNat 7
  · subst h7; exact absurd h (by decide)
  by_cases h8 : c = Char.ofNat 8
  · subst h8; exact absurd h (by decide)
  by_cases h12 : c = Char.ofNat 12
  · subst h12; exact absurd h (by decide)
  by_cases h10 : c = Char.ofNat 10
  · subst h10; exact absurd h (by decide)
  by_cases h13 : c = Char.ofNat 13
  · subst h13; exact absurd h (by decide)
  by_cases h9 : c = Char.ofNat 9
  · subst h9; exact absurd h (by decide)
  by_cases h11 : c = Char.ofNat 11
  · subst h11; exact absurd h (by decide)
  have hb : 32 ≤ c.toNat ∧ c.toNat < 127 := by
    simp only [plainChar, Bool.and_eq_true, decide_eq_true_eq] at h
    exact ⟨h.1.1.1, h.1.1.2⟩
  simp [goEscapeChar, h34, h92, h7, h8, h12, h10, h13, h9, h11, hb]

theorem escape_plain : ∀ {k : Str}, (∀ c ∈ k, plainChar c = true) →
    (k.map goEscapeChar).flatten = k := by
  intro k
  induction k with
  | nil => simp
  | cons c rest ih =>
      intro h
      simp only [List.map_cons, List.flatten_cons]
      rw [goEscapeChar_plain (h c (by simp)), ih (fun c' hc' => h c' (List.mem_cons_of_mem _ hc'))]
      rfl

theorem key_infix_quoteKeys {k : Str} {ks : List Str} (hk : k ∈ ks)
    (h : ∀ c ∈ k, plainChar c = true) : k <:+: quoteKeys ks := by
  have h1 : goQuote k ∈ ks.map goQuote := List.mem_map_of_mem _ hk
  have h2 : goQuote k <:+: (List.intersperse (str " ") (ks.map goQuote)).flatten :=
    mem_infix_intersperse_flatten _ _ _ h1
  have h3 : k <:+: goQuote k := by
    rw [goQuote, escape_plain h]
    exact ⟨[Char.ofNat 34], [Char.ofNat 34], rfl⟩
  have h4 : (List.intersperse (str " ") (ks.map goQuote)).flatten <:+: quoteKeys ks :=
    ⟨['['], [']'], rfl⟩
  exact (h3.trans h2).trans h4

/-- C6: when no candidate key's object exists (and the request is valid),
`Restore` fails with the cache-miss error whose message, rendered with the
source's `%q` of the key list, mentions every key tried (second conjunct
for keys of escape-free printable bytes, which `%q` prints verbatim), and
the filesystem is returned unchanged (first conjunct — the miss is detected
before the target directory or any file would be created). -/
theorem restore_miss_names_all_keys_and_leaves_fs
    (store : Str → LookupResult) (objects : Str → Option (List Entry)) (fs : FS)
    (closes : RestoreCloses) (i : RestoreRequest)
    (hb : i.Bucket ≠ []) (hd : i.Dir ≠ []) (hk : i.Keys ≠ [])
    (hmiss : ∀ k ∈ i.Keys, store k = .notExist) :
    Restore store objects fs closes (some i) =
      (fs, some (str "failed to find cached objects among keys " ++ quoteKeys i.Keys), i.Keys) ∧
    (∀ k ∈ i.Keys, (∀ c ∈ k, plainChar c = true) →
      k <:+: str "failed to find cached objects among keys " ++ quoteKeys i.Keys) := by
  constructor
  · have hfm := findMatch_all_missing store i.Keys none hmiss
    have hlen : ¬ (i.Keys.length < 1) := by
      cases hks : i.Keys with
      | nil => exact absurd hks hk
      | cons a t => simp [hks]
    simp [Restore, hb, hd, hlen, hfm]
  · intro k hkmem hplain
    exact infix_append_left _ (key_infix_quoteKeys hkmem hplain)

/-- C6 witness: restoring with keys `[X, Y]` that both miss leaves the
filesystem empty and produces an error mentioning both keys. -/
theorem restore_miss_names_all_keys_and_leaves_fs_witness :
    Restore (fun _ => .notExist) (fun _ => none) FS.empty ⟨none, none⟩
      (some ⟨str "b", [str "X", str "Y"], str "/t"⟩) =
      (FS.empty,
        some (str "failed to find cached objects among keys " ++ quoteKeys [str "X", str "Y"]),
        [str "X", str "Y"]) ∧
    (∀ k ∈ [str "X", str "Y"], (∀ c ∈ k, plainChar c = true) →
      k <:+: str "failed to find cached objects among keys " ++ quoteKeys [str "X", str "Y"]) :=
  restore_miss_names_all_keys_and_leaves_fs _ _ FS.empty ⟨none, none⟩
    ⟨str "b", [str "X", str "Y"], str "/t"⟩
    (by decide) (by decide) (by decide) (fun _ _ => rfl)

/-! ## Close-error folding -/

theorem infix_append_right {l x : Str} (y : Str) (h : l <:+: x) : l <:+: x ++ y := by
  obtain ⟨s, t, hst⟩ := h
  exact ⟨s, t ++ y, by rw [← hst]; simp⟩

/-- A later close handler keeps an already-present message fragment. -/
theorem applyClose_keeps_infix (what : Str) (cerr : Option Str) {m x : Str} (h : x <:+: m) :
    ∃ m2, applyClose what cerr (some m) = some m2 ∧ x <:+: m2 := by
  cases cerr with
  | none => exact ⟨m, rfl, h⟩
  | some c =>
      exact ⟨_, rfl, infix_append_right _ (infix_append_right _
        (infix_append_right _ (infix_append_right _ h)))⟩

/-- A failing close always leaves its own message in the result. -/
theorem applyClose_records (what : Str) (c : Str) (retErr : Option Str) :
    ∃ m2, applyClose what (some c) retErr = some m2 ∧
      (str "failed to close " ++ what ++ str ": " ++ c) <:+: m2 := by
  cases retErr with
  | none => exact ⟨_, rfl, List.infix_refl _⟩
  | some r =>
      refine ⟨_, rfl, ⟨r ++ str ": ", [], ?_⟩⟩
      have hsplit : str ": failed to close " = str ": " ++ str "failed to close " := rfl
      rw [hsplit]
      simp [List.append_assoc]

/-- A close handler never discards an existing error. -/
theorem applyClose_keeps_some (what : Str) (cerr : Option Str) (m : Str) :
    ∃ m2, applyClose what cerr (some m) = some m2 := by
  cases cerr with
  | none => exact ⟨m, rfl⟩
  | some c => exact ⟨_, rfl⟩

/-- C9: for both pipelines' deferred close stacks (`Save`: tar writer, then
gzip writer, then gcs writer — the reverse of acquisition; `Restore`: gzip
reader, then gcs reader), the final result is clean exactly when the body
and every close succeeded (conjuncts 1 and 5); a body error survives as a
prefix of the final message, i.e. close errors are appended, never
replacing it (2 and 6); every failing close's own message appears in the
final error (3 and 7); and with everything failing the final message shows
the closes folded in reverse-acquisition order after the body error (4 and
8). The stacks are exactly the ones `Save` and `Restore` run. -/
theorem close_errors_never_dropped :
    (∀ (closes : SaveCloses) (body : Option Str),
      runDefers [applyClose (str "gcs writer") closes.gcsw,
          applyClose (str "gzip writer") closes.gzw,
          applyClose (str "tar writer") closes.tw] body = none ↔
        body = none ∧ closes.tw = none ∧ closes.gzw = none ∧ closes.gcsw = none) ∧
    (∀ (closes : SaveCloses) (r : Str), ∃ s,
      runDefers [applyClose (str "gcs writer") closes.gcsw,
          applyClose (str "gzip writer") closes.gzw,
          applyClose (str "tar writer") closes.tw] (some r) = some (r ++ s)) ∧
    (∀ (closes : SaveCloses) (body : Option Str) (w c : Str),
      (w, some c) ∈ [(str "tar writer", closes.tw), (str "gzip writer", closes.gzw),
          (str "gcs writer", closes.gcsw)] →
      ∃ m, runDefers [applyClose (str "gcs writer") closes.gcsw,
          applyClose (str "gzip writer") closes.gzw,
          applyClose (str "tar writer") closes.tw] body = some m ∧
        (str "failed to close " ++ w ++ str ": " ++ c) <:+: m) ∧
    (∀ (r t g c : Str),
      runDefers [applyClose (str "gcs writer") (some c),
          applyClose (str "gzip writer") (some g),
          applyClose (str "tar writer") (some t)] (some r) =
        some (r ++ str ": failed to close tar writer: " ++ t ++
          str ": failed to close gzip writer: " ++ g ++
          str ": failed to close gcs writer: " ++ c)) ∧
    (∀ (closes : RestoreCloses) (body : Option Str),
      runDefers [applyClose (str "gcs reader") closes.gcsr,
          applyClose (str "gzip reader") closes.gzr] body = none ↔
        body = none ∧ closes.gzr = none ∧ closes.gcsr = none) ∧
    (∀ (closes : RestoreCloses) (r : Str), ∃ s,
      runDefers [applyClose (str "gcs reader") closes.gcsr,
          applyClose (str "gzip reader") closes.gzr] (some r) = some (r ++ s)) ∧
    (∀ (closes : RestoreCloses) (body : Option Str) (w c : Str),
      (w, some c) ∈ [(str "gzip reader", closes.gzr), (str "gcs reader", closes.gcsr)] →
      ∃ m, runDefers [applyClose (str "gcs reader") closes.gcsr,
          applyClose (str "gzip reader") closes.gzr] body = some m ∧
        (str "failed to close " ++ w ++ str ": " ++ c) <:+: m) ∧
    (∀ (r g c : Str),
      runDefers [applyClose (str "gcs reader") (some c),
          applyClose (str "gzip reader") (some g)] (some r) =
        some (r ++ str ": failed to close gzip reader: " ++ g ++
          str ": failed to close gcs reader: " ++ c)) := by
  refine ⟨?_, ?_, ?_, ?_, ?_, ?_, ?_, ?_⟩
  · rintro ⟨tw, gzw, gcsw⟩ body
    cases body <;> cases tw <;> cases gzw <;> cases gcsw <;>
      simp [runDefers, applyClose]
  · rintro ⟨tw, gzw, gcsw⟩ r
    cases tw <;> cases gzw <;> cases gcsw <;>
      simp [runDefers, applyClose, List.append_assoc]
  · rintro ⟨tw, gzw, gcsw⟩ body w c hmem
    simp only [List.mem_cons, List.not_mem_nil, or_false, Prod.mk.injEq] at hmem
    simp only [runDefers]
    rcases hmem with ⟨rfl, hc⟩ | ⟨rfl, hc⟩ | ⟨rfl, hc⟩
    · obtain ⟨m1, hm1, hx1⟩ := applyClose_records (str "tar writer") c body
      rw [hc] at hm1
      rw [hm1]
      obtain ⟨m2, hm2, hx2⟩ := applyClose_keeps_infix (str "gzip writer") gzw hx1
      rw [hm2]
      exact applyClose_keeps_infix (str "gcs writer") gcsw hx2
    · obtain ⟨m1, hm1⟩ : ∃ o, applyClose (str "tar writer") tw body = o := ⟨_, rfl⟩
      rw [hm1, ← hc]
      cases m1 with
      | none =>
          obtain ⟨m2', hm2', hx2'⟩ := applyClose_records (str "gzip writer") c none
          rw [hm2']
          exact applyClose_keeps_infix (str "gcs writer") gcsw hx2'
      | some m1' =>
          obtain ⟨m2', hm2', hx2'⟩ := applyClose_records (str "gzip writer") c (some m1')
          rw [hm2']
          exact applyClose_keeps_infix (str "gcs writer") gcsw hx2'
    · obtain ⟨m1, hm1⟩ : ∃ o, applyClose (str "tar writer") tw body = o := ⟨_, rfl⟩
      rw [hm1]
      obtain ⟨m2, hm2⟩ : ∃ o, applyClose (str "gzip writer") gzw m1 = o := ⟨_, rfl⟩
      rw [hm2, ← hc]
      cases m2 with
      | none => exact applyClose_records (str "gcs writer") c none
      | some m2' => exact applyClose_records (str "gcs writer") c (some m2')
  · intro r t g c
    have h1 : str ": failed to close tar writer: " =
      str ": failed to close " ++ str "tar writer" ++ str ": " := rfl
    have h2 : str ": failed to close gzip writer: " =
      str ": failed to close " ++ str "gzip writer" ++ str ": " := rfl
    have h3 : str ": failed to close gcs writer: " =
      str ": failed to close " ++ str "gcs writer" ++ str ": " := rfl
    simp [runDefers, applyClose, h1, h2, h3, List.append_assoc]
  · rintro ⟨gzr, gcsr⟩ body
    cases body <;> cases gzr <;> cases gcsr <;>
      simp [runDefers, applyClose]
  · rintro ⟨gzr, gcsr⟩ r
    cases gzr <;> cases gcsr <;>
      simp [runDefers, applyClose, List.append_assoc]
  · rintro ⟨gzr, gcsr⟩ body w c hmem
    simp only [List.mem_cons, List.not_mem_nil, or_false, Prod.mk.injEq] at hmem
    simp only [runDefers]
    rcases hmem with ⟨rfl, hc⟩ | ⟨rfl, hc⟩
    · obtain ⟨m1, hm1, hx1⟩ := applyClose_records (str "gzip reader") c body
      rw [hc] at hm1
      rw [hm1]
      exact applyClose_keeps_infix (str "gcs reader") gcsr hx1
    · obtain ⟨m1, hm1⟩ : ∃ o, applyClose (str "gzip reader") gzr body = o := ⟨_, rfl⟩
      rw [hm1, ← hc]
      cases m1 with
      | none => exact applyClose_records (str "gcs reader") c none
      | some m1' => exact applyClose_records (str "gcs reader") c (some m1')
  · intro r g c
    have h2 : str ": failed to close gzip reader: " =
      str ": failed to close " ++ str "gzip reader" ++ str ": " := rfl
    have h3 : str ": failed to close gcs reader: " =
      str ": failed to close " ++ str "gcs reader" ++ str ": " := rfl
    simp [runDefers, applyClose, h2, h3, List.append_assoc]

/-- C9 witness: with the body failed and all of `Save`'s closes failing,
the final error is the body error followed by the three close errors in
reverse-acquisition order. -/
theorem close_errors_never_dropped_witness :
    runDefers [applyClose (str "gcs writer") (some (str "C")),
        applyClose (str "gzip writer") (some (str "G")),
        applyClose (str "tar writer") (some (str "T"))] (some (str "B")) =
      some (str "B" ++ str ": failed to close tar writer: " ++ str "T" ++
        str ": failed to close gzip writer: " ++ str "G" ++
        str ": failed to close gcs writer: " ++ str "C") :=
  close_errors_never_dropped.2.2.2.1 (str "B") (str "T") (str "G") (str "C")

/-! ## Filesystem-step lemmas -/

theorem lookup_append_of_none {α β : Type} [BEq α] {l1 : List (α × β)} (l2 : List (α × β))
    {a : α} (h : List.lookup a l1 = none) :
    List.lookup a (l1 ++ l2) = List.lookup a l2 := by
  induction l1 with
  | nil => rfl
  | cons p rest ih =>
      obtain ⟨k, b⟩ := p
      rw [List.cons_append, List.lookup_cons] at *
      cases hpa : a == k with
      | true => simp [hpa] at h
      | false => simp only [hpa] at h ⊢; exact ih h

theorem lookup_update {l : List (Str × Nat × List Nat)} {p : Str} (w : Nat × List Nat)
    (h : (List.lookup p l).isSome) :
    List.lookup p (l.map (fun e => if e.1 = p then (p, w) else e)) = some w := by
  induction l with
  | nil => cases h
  | cons q rest ih =>
      obtain ⟨k, v⟩ := q
      by_cases hk : k = p
      · subst hk
        simp [List.lookup_cons]
      · rw [List.lookup_cons] at h
        have hbeq : (p == k) = false := by simp [Ne.symm hk]
        rw [hbeq] at h
        simp only [List.map_cons, if_neg hk, List.lookup_cons, hbeq]
        exact ih h

theorem update_keys {l : List (Str × Nat × List Nat)} {p : Str} {w : Nat × List Nat} :
    (l.map (fun e => if e.1 = p then (p, w) else e)).map (·.1) = l.map (·.1) := by
  induction l with
  | nil => rfl
  | cons q rest ih =>
      by_cases hk : q.1 = p
      · simp [hk, ih]
      · simp [hk, ih]

theorem isDirAt_of_mem {fs : FS} {d : Str × Nat} (hd : d ∈ fs.dirs) : isDirAt fs d.1 = true := by
  simp only [isDirAt, List.any_eq_true, decide_eq_true_eq]
  exact ⟨d, hd, rfl⟩

theorem isDirAt_iff {fs : FS} {p : Str} : isDirAt fs p = true ↔ ∃ d ∈ fs.dirs, d.1 = p := by
  simp [isDirAt, List.any_eq_true]

/-- The `os.MkdirAll` fold over a list of paths none of which hosts a
regular file: it succeeds, touches no file, keeps every existing directory,
makes every listed path a directory, and creates only listed paths, each
with the requested permission. -/
theorem mkdirFold_spec : ∀ (L : List Str) (fs : FS) (perm : Nat),
    (∀ q ∈ L, lookupFile fs q = none) →
    ∃ fs2, L.foldlM (fun s q => mkdirOne s q perm) fs = .ok fs2 ∧
      fs2.files = fs.files ∧
      (∀ d ∈ fs.dirs, d ∈ fs2.dirs) ∧
      (∀ q ∈ L, isDirAt fs2 q = true) ∧
      (∀ d ∈ fs2.dirs, d ∈ fs.dirs ∨ (d.2 = perm ∧ d.1 ∈ L)) := by
  intro L
  induction L with
  | nil =>
      intro fs perm _
      exact ⟨fs, rfl, rfl, fun d hd => hd, by simp, fun d hd => Or.inl hd⟩
  | cons q rest ih =>
      intro fs perm h
      have hq := h q (by simp)
      have hnotsome : ¬ (lookupFile fs q).isSome = true := by simp [hq]
      by_cases hdir : isDirAt fs q = true
      · have hone : mkdirOne fs q perm = .ok fs := by
          simp [mkdirOne, hq, hdir]
        obtain ⟨fs2, heq, hfiles, hmono, hdirs, hclass⟩ :=
          ih fs perm (fun q' hq' => h q' (List.mem_cons_of_mem _ hq'))
        refine ⟨fs2, ?_, hfiles, hmono, ?_, ?_⟩
        · simpa [List.foldlM_cons, hone] using heq
        · intro q' hq'
          rcases List.mem_cons.mp hq' with rfl | hq''
          · obtain ⟨d, hd, hd1⟩ := isDirAt_iff.mp hdir
            have := isDirAt_of_mem (hmono d hd)
            rwa [hd1] at this
          · exact hdirs q' hq''
        · intro d hd
          rcases hclass d hd with h1 | ⟨h1, h2⟩
          · exact Or.inl h1
          · exact Or.inr ⟨h1, List.mem_cons_of_mem _ h2⟩
      · have hone : mkdirOne fs q perm = .ok { fs with dirs := fs.dirs ++ [(q, perm)] } := by
          simp [mkdirOne, hq, hdir]
        have hlook : ∀ q' ∈ rest, lookupFile { fs with dirs := fs.dirs ++ [(q, perm)] } q' = none :=
          fun q' hq' => h q' (List.mem_cons_of_mem _ hq')
        obtain ⟨fs2, heq, hfiles, hmono, hdirs, hclass⟩ :=
          ih { fs with dirs := fs.dirs ++ [(q, perm)] } perm hlook
        refine ⟨fs2, ?_, hfiles, ?_, ?_, ?_⟩
        · simpa [List.foldlM_cons, hone] using heq
        · intro d hd
          exact hmono d (by simp [hd])
        · intro q' hq'
          rcases List.mem_cons.mp hq' with rfl | hq''
          · have hmem : ((q', perm) : Str × Nat) ∈ ({ fs with dirs := fs.dirs ++ [(q', perm)] } : FS).dirs := by
              simp
            exact isDirAt_of_mem (hmono _ hmem)
          · exact hdirs q' hq''
        · intro d hd
          rcases hclass d hd with h1 | ⟨h1, h2⟩
          · rcases List.mem_append.mp h1 with h3 | h3
            · exact Or.inl h3
            · simp only [List.mem_singleton] at h3
              subst h3
              exact Or.inr ⟨rfl, by simp⟩
          · exact Or.inr ⟨h1, List.mem_cons_of_mem _ h2⟩

/-- `os.MkdirAll`'s behavior on a conflict-free path. -/
theorem mkdirAll_spec (fs : FS) (p : Str) (perm : Nat)
    (h : ∀ q ∈ properAncestors p ++ [p], lookupFile fs q = none) :
    ∃ fs2, mkdirAll fs p perm = .ok fs2 ∧
      fs2.files = fs.files ∧
      (∀ d ∈ fs.dirs, d ∈ fs2.dirs) ∧
      (∀ q ∈ properAncestors p ++ [p], isDirAt fs2 q = true) ∧
      (∀ d ∈ fs2.dirs, d ∈ fs.dirs ∨ (d.2 = perm ∧ d.1 ∈ properAncestors p ++ [p])) :=
  mkdirFold_spec _ fs perm h

theorem writeFileAt_create {fs : FS} {p : Str} (mode : Nat) (c : List Nat)
    (hd : isDirAt fs p = false) (hf : List.lookup p fs.files = none) :
    writeFileAt fs p mode c = .ok { fs with files := fs.files ++ [(p, mode, c)] } := by
  simp [writeFileAt, hd, hf]

theorem writeFileAt_update {fs : FS} {p : Str} (mode : Nat) (c : List Nat) {m0 : Nat}
    {c0 : List Nat} (hd : isDirAt fs p = false) (hf : List.lookup p fs.files = some (m0, c0)) :
    writeFileAt fs p mode c =
      .ok { fs with files :=
        fs.files.map (fun e => if e.1 = p then (p, m0, c ++ c0.drop c.length) else e) } := by
  simp [writeFileAt, hd, hf]

/-- C3 counterexample: the claim predicts that a regular-file entry
creates-or-truncates the target with the entry's mode, so decoding entry
`x` (mode 384, content `[9]`) over an existing file `/t/x` (mode 420,
content `[1,2,3]`) should leave `(384, [9])`. The code opens with
`O_CREATE|O_RDWR` and no `O_TRUNC`: the result keeps mode 420 and content
`[9,2,3]` — the tail of the old content survives and the recorded mode is
not applied. -/
theorem decode_step_no_truncate_counterexample :
    restoreEntry (str "/t") ⟨[(str "/t/x", 420, [1, 2, 3])], [(str "/t", 493)]⟩
        ⟨str "x", typeReg, 384, [9]⟩ =
      .ok ⟨[(str "/t/x", 420, [9, 2, 3])], [(str "/t", 493)]⟩ ∧
    ((420, [9, 2, 3]) : Nat × List Nat) ≠ (384, [9]) :=
  ⟨rfl, by decide⟩

/-- C3 (amended): one decode-loop iteration behaves as follows, writing
`target` for `filepath.Join(dir, entry.Name)`. A directory entry creates
`target` and its missing ancestors, all with default directory mode 0755,
touching no file (conjunct 1, under no-file-conflict hypotheses). A
regular-file entry first ensures the parent chain of `target` exists with
default mode 0755, then: if no file is at `target`, creates it with the
entry's recorded mode and exactly the entry's content (conjunct 2); if a
file already exists there, keeps that file's mode and overwrites from
offset zero without truncating, leaving the entry's content followed by
whatever tail of the old content extends past it (conjunct 3) — the open
uses `O_CREATE|O_RDWR` without `O_TRUNC`, and its mode argument applies
only at creation. Any other entry kind fails with an error naming the
offending path (conjunct 4). -/
theorem decode_step_characterization (dir : Str) (fs : FS) (e : Entry) :
    (e.typeflag = typeDir →
      (∀ q ∈ properAncestors (joinPath dir e.name) ++ [joinPath dir e.name],
        lookupFile fs q = none) →
      ∃ fs2, restoreEntry dir fs e = .ok fs2 ∧ fs2.files = fs.files ∧
        (∀ q ∈ properAncestors (joinPath dir e.name) ++ [joinPath dir e.name],
          isDirAt fs2 q = true) ∧
        (∀ d ∈ fs2.dirs, d ∈ fs.dirs ∨
          (d.2 = 493 ∧ d.1 ∈ properAncestors (joinPath dir e.name) ++ [joinPath dir e.name]))) ∧
    (e.typeflag = typeReg →
      (∀ q ∈ properAncestors (dirOf (joinPath dir e.name)) ++ [dirOf (joinPath dir e.name)],
        lookupFile fs q = none) →
      isDirAt fs (joinPath dir e.name) = false →
      joinPath dir e.name ∉
        properAncestors (dirOf (joinPath dir e.name)) ++ [dirOf (joinPath dir e.name)] →
      lookupFile fs (joinPath dir e.name) = none →
      ∃ fs2, restoreEntry dir fs e = .ok fs2 ∧
        lookupFile fs2 (joinPath dir e.name) = some (e.mode, e.content) ∧
        (∀ q ∈ properAncestors (dirOf (joinPath dir e.name)) ++ [dirOf (joinPath dir e.name)],
          isDirAt fs2 q = true)) ∧
    (e.typeflag = typeReg →
      (∀ q ∈ properAncestors (dirOf (joinPath dir e.name)) ++ [dirOf (joinPath dir e.name)],
        lookupFile fs q = none) →
      isDirAt fs (joinPath dir e.name) = false →
      ∀ m0 c0, lookupFile fs (joinPath dir e.name) = some (m0, c0) →
      ∃ fs2, restoreEntry dir fs e = .ok fs2 ∧
        lookupFile fs2 (joinPath dir e.name) =
          some (m0, e.content ++ c0.drop e.content.length)) ∧
    (e.typeflag ≠ typeDir → e.typeflag ≠ typeReg →
      ∃ m, restoreEntry dir fs e = .error m ∧ joinPath dir e.name <:+: m) := by
  refine ⟨?_, ?_, ?_, ?_⟩
  · intro htf hanc
    obtain ⟨fs2, heq, hfiles, hmono, hdirs, hclass⟩ :=
      mkdirAll_spec fs (joinPath dir e.name) 493 hanc
    refine ⟨fs2, ?_, hfiles, hdirs, hclass⟩
    simp [restoreEntry, htf, heq]
  · intro htf hanc hnd hnotanc hnew
    obtain ⟨fs1, heq, hfiles, hmono, hdirs, hclass⟩ :=
      mkdirAll_spec fs (dirOf (joinPath dir e.name)) 493 hanc
    have hnd1 : isDirAt fs1 (joinPath dir e.name) = false := by
      rw [Bool.eq_false_iff]
      intro hcon
      obtain ⟨d, hd, hd1⟩ := isDirAt_iff.mp hcon
      rcases hclass d hd with h1 | ⟨-, h2⟩
      · have : isDirAt fs d.1 = true := isDirAt_of_mem h1
        rw [hd1] at this
        rw [this] at hnd
        cases hnd
      · rw [hd1] at h2
        exact hnotanc h2
    have hnew1 : List.lookup (joinPath dir e.name) fs1.files = none := by
      rw [hfiles]; exact hnew
    have hw := writeFileAt_create e.mode e.content hnd1 hnew1
    have h1 : (typeReg = typeDir) = False := by simp [typeReg, typeDir]
    refine ⟨{ fs1 with files := fs1.files ++ [(joinPath dir e.name, e.mode, e.content)] },
      by simp [restoreEntry, htf, h1, heq, hw], ?_, ?_⟩
    · show List.lookup _ (fs1.files ++ [(joinPath dir e.name, e.mode, e.content)]) = _
      rw [lookup_append_of_none _ hnew1]
      simp [List.lookup_cons]
    · intro q hq
      have := hdirs q hq
      obtain ⟨d, hd, hd1⟩ := isDirAt_iff.mp this
      exact isDirAt_iff.mpr ⟨d, hd, hd1⟩
  · intro htf hanc hnd m0 c0 hold
    obtain ⟨fs1, heq, hfiles, hmono, hdirs, hclass⟩ :=
      mkdirAll_spec fs (dirOf (joinPath dir e.name)) 493 hanc
    have hnd1 : isDirAt fs1 (joinPath dir e.name) = false := by
      rw [Bool.eq_false_iff]
      intro hcon
      obtain ⟨d, hd, hd1⟩ := isDirAt_iff.mp hcon
      rcases hclass d hd with h1 | ⟨-, h2⟩
      · have : isDirAt fs d.1 = true := isDirAt_of_mem h1
        rw [hd1] at this
        rw [this] at hnd
        cases hnd
      · rw [hd1] at h2
        -- a file sits at `joinPath dir e.name`, so it cannot be in the
        -- conflict-free ancestor list
        have := hanc _ h2
        rw [hold] at this
        cases this
    have hold1 : List.lookup (joinPath dir e.name) fs1.files = some (m0, c0) := by
      rw [hfiles]; exact hold
    have hw := writeFileAt_update e.mode e.content hnd1 hold1
    have h1 : (typeReg = typeDir) = False := by simp [typeReg, typeDir]
    refine ⟨{ fs1 with files := fs1.files.map (fun f =>
        if f.1 = joinPath dir e.name then
          (joinPath dir e.name, m0, e.content ++ c0.drop e.content.length) else f) },
      by simp [restoreEntry, htf, h1, heq, hw], ?_⟩
    show List.lookup _ (fs1.files.map _) = _
    have : (List.lookup (joinPath dir e.name) fs1.files).isSome := by
      rw [hold1]; rfl
    exact lookup_update _ this
  · intro h1 h2
    refine ⟨str "unknown header type " ++ (Nat.repr e.typeflag.toNat).data ++
        str " for " ++ joinPath dir e.name,
      by simp [restoreEntry, h1, h2], ?_⟩
    exact ⟨str "unknown header type " ++ (Nat.repr e.typeflag.toNat).data ++ str " for ",
      [], by simp⟩

/-- C3 witness: the three live branches at concrete inputs — a directory
entry on a fresh filesystem, a fresh regular-file entry, and an
unsupported entry kind (a symlink typeflag `'2'`). -/
theorem decode_step_characterization_witness :
    (∃ fs2, restoreEntry (str "/t") FS.empty ⟨str "d", typeDir, 0, []⟩ = .ok fs2 ∧
      fs2.files = FS.empty.files ∧
      (∀ q ∈ properAncestors (joinPath (str "/t") (str "d")) ++ [joinPath (str "/t") (str "d")],
        isDirAt fs2 q = true) ∧
      (∀ d ∈ fs2.dirs, d ∈ FS.empty.dirs ∨
        (d.2 = 493 ∧ d.1 ∈ properAncestors (joinPath (str "/t") (str "d")) ++
          [joinPath (str "/t") (str "d")]))) ∧
    (∃ fs2, restoreEntry (str "/t") FS.empty ⟨str "a/x", typeReg, 420, [7]⟩ = .ok fs2 ∧
      lookupFile fs2 (joinPath (str "/t") (str "a/x")) = some (420, [7]) ∧
      (∀ q ∈ properAncestors (dirOf (joinPath (str "/t") (str "a/x"))) ++
          [dirOf (joinPath (str "/t") (str "a/x"))], isDirAt fs2 q = true)) ∧
    (∃ m, restoreEntry (str "/t") FS.empty ⟨str "s", '2', 0, []⟩ = .error m ∧
      joinPath (str "/t") (str "s") <:+: m) :=
  ⟨(decode_step_characterization (str "/t") FS.empty ⟨str "d", typeDir, 0, []⟩).1
      rfl (by decide),
    (decode_step_characterization (str "/t") FS.empty ⟨str "a/x", typeReg, 420, [7]⟩).2.1
      rfl (by decide) (by decide) (by decide) (by decide),
    (decode_step_characterization (str "/t") FS.empty ⟨str "s", '2', 0, []⟩).2.2.2
      (by decide) (by decide)⟩

/-! ## Path-structure lemmas for the round trip -/

theorem firstComp_of_no_sep {n : Str} (h : sep ∉ n) : firstComp n = n := by
  induction n with
  | nil => rfl
  | cons c t ih =>
      have hc : c ≠ sep := fun hcc => h (hcc ▸ List.mem_cons_self c t)
      have ht : sep ∉ t := fun htt => h (List.mem_cons_of_mem _ htt)
      simp only [firstComp] at *
      rw [List.takeWhile_cons_of_pos (by simpa using hc)]
      rw [ih ht]

theorem firstComp_append_sep (x y : Str) : firstComp (x ++ sep :: y) = firstComp x := by
  induction x with
  | nil =>
      simp only [firstComp, List.nil_append]
      rw [List.takeWhile_cons_of_neg (by simp)]
      rfl
  | cons c t ih =>
      by_cases hc : c = sep
      · subst hc
        simp only [firstComp, List.cons_append]
        rw [List.takeWhile_cons_of_neg (by simp), List.takeWhile_cons_of_neg (by simp)]
      · simp only [firstComp, List.cons_append] at *
        rw [List.takeWhile_cons_of_pos (by simpa using hc),
          List.takeWhile_cons_of_pos (by simpa using hc), ih]

theorem not_append_sep_prefix_self (x : Str) : ¬ (x ++ [sep]) <+: x := by
  intro h
  have := h.length_le
  simp at this

theorem joinPath_of_ne {targ r : Str} (h : r ≠ []) : joinPath targ r = targ ++ sep :: r := by
  simp [joinPath, h]

theorem append_sep_cons (targ x : Str) : targ ++ sep :: x = (targ ++ [sep]) ++ x := by
  simp

theorem prefix_cancel_sep {targ a b : Str} (h : targ ++ sep :: a <+: targ ++ sep :: b) :
    a <+: b := by
  rw [append_sep_cons targ a, append_sep_cons targ b] at h
  exact (List.prefix_append_right_inj _).mp h

theorem lookup_eq_none_of {l : List (Str × Nat × List Nat)} {a : Str}
    (h : ∀ p ∈ l, p.1 ≠ a) : List.lookup a l = none := by
  induction l with
  | nil => rfl
  | cons q rest ih =>
      obtain ⟨k, v⟩ := q
      have hk : k ≠ a := h (k, v) (by simp)
      rw [List.lookup_cons]
      have : (a == k) = false := by simp [Ne.symm hk]
      rw [this]
      exact ih (fun p hp => h p (List.mem_cons_of_mem _ hp))

theorem properAncestors_spec {p q : Str} (h : q ∈ properAncestors p) :
    (q ++ [sep]) <+: p := by
  simp only [properAncestors, List.mem_map, List.mem_filter, List.mem_range] at h
  obtain ⟨i, ⟨hi, hcond⟩, rfl⟩ := h
  simp only [Bool.and_eq_true, decide_eq_true_eq] at hcond
  obtain ⟨hpos, hhead⟩ := hcond
  cases hdrop : p.drop i with
  | nil => rw [hdrop] at hhead; cases hhead
  | cons c t =>
      rw [hdrop] at hhead
      simp only [List.head?_cons, Option.some.injEq] at hhead
      subst hhead
      refine ⟨t, ?_⟩
      conv_rhs => rw [← List.take_append_drop i p]
      rw [hdrop]
      simp

theorem split_last_sep : ∀ (r : Str), sep ∈ r → ∃ r1 r2, r = r1 ++ sep :: r2 ∧ sep ∉ r2 := by
  intro r
  induction r with
  | nil => intro h; cases h
  | cons c t ih =>
      intro h
      by_cases ht : sep ∈ t
      · obtain ⟨r1, r2, heq, hno⟩ := ih ht
        exact ⟨c :: r1, r2, by simp [heq], hno⟩
      · have hc : c = sep := by
          rcases List.mem_cons.mp h with h1 | h1
          · exact h1.symm
          · exact absurd h1 ht
        subst hc
        exact ⟨[], t, rfl, ht⟩

theorem dirOf_decomp {u v : Str} (hu : u ≠ []) (hv : sep ∉ v) :
    dirOf (u ++ sep :: v) = u := by
  have hrev : (u ++ sep :: v).reverse = v.reverse ++ sep :: u.reverse := by
    simp
  have hdrop : ((u ++ sep :: v).reverse.dropWhile (· ≠ sep)) = sep :: u.reverse := by
    rw [hrev]
    rw [List.dropWhile_append_of_pos (by
      intro a ha
      have : a ∈ v := by simpa using ha
      simp only [ne_eq, decide_eq_true_eq]
      intro hc
      exact hv (hc ▸ this))]
    rw [List.dropWhile_cons_of_neg (by simp)]
  unfold dirOf
  rw [hdrop]
  have hrr : (sep :: u.reverse).reverse = u ++ [sep] := by simp
  rw [hrr]
  cases hu2 : u with
  | nil => exact absurd hu2 hu
  | cons a t =>
      cases ht : t ++ [sep] with
      | nil => exact absurd ht (by simp)
      | cons b s =>
          simp only [List.cons_append, ht]
          have : (a :: b :: s).dropLast = a :: (b :: s).dropLast := rfl
          rw [this, ← ht]
          simp

theorem ancestors_of_target {targ r : Str} (htarg : targ ≠ []) (hr : r ≠ []) :
    ∀ q ∈ properAncestors (dirOf (targ ++ sep :: r)) ++ [dirOf (targ ++ sep :: r)],
      (q ++ [sep]) <+: targ ++ sep :: r := by
  have key : ∃ u, dirOf (targ ++ sep :: r) = u ∧ (u ++ [sep]) <+: targ ++ sep :: r := by
    by_cases hs : sep ∈ r
    · obtain ⟨r1, r2, heq, hno⟩ := split_last_sep r hs
      refine ⟨targ ++ sep :: r1, ?_, ?_⟩
      · rw [heq]
        have : targ ++ sep :: (r1 ++ sep :: r2) = (targ ++ sep :: r1) ++ sep :: r2 := by
          simp
        rw [this]
        exact dirOf_decomp (by simp [htarg]) hno
      · rw [heq]
        refine ⟨r2, ?_⟩
        simp
    · exact ⟨targ, dirOf_decomp htarg hs, ⟨r, by simp⟩⟩
  obtain ⟨u, hu, hupre⟩ := key
  intro q hq
  rcases List.mem_append.mp hq with hq1 | hq1
  · rw [hu] at hq1
    have h1 : (q ++ [sep]) <+: u := properAncestors_spec hq1
    have h2 : u <+: targ ++ sep :: r := by
      obtain ⟨t, ht⟩ := hupre
      exact ⟨[sep] ++ t, by rw [← ht]; simp⟩
    exact h1.trans h2
  · simp only [List.mem_singleton] at hq1
    subst hq1
    rw [hu]
    exact hupre

theorem pathSep_head {n r : Str} (hsep : sep ∉ n) (hfc : firstComp r ≠ n) : PathSep n r := by
  refine ⟨?_, ?_, ?_⟩
  · rintro rfl
    exact hfc (firstComp_of_no_sep hsep)
  · intro hp
    obtain ⟨t, ht⟩ := hp
    have hr : r = n ++ sep :: t := by rw [← ht]; simp
    exact hfc (by rw [hr, firstComp_append_sep, firstComp_of_no_sep hsep])
  · intro hp
    exact hsep (hp.subset (by simp))

theorem pathSep_under {n s b : Str} (hsep : sep ∉ n) (hfcb : firstComp b ≠ n) :
    PathSep (n ++ sep :: s) b := by
  have hfca : firstComp (n ++ sep :: s) = n := by
    rw [firstComp_append_sep, firstComp_of_no_sep hsep]
  refine ⟨?_, ?_, ?_⟩
  · intro heq
    exact hfcb (by rw [← heq, hfca])
  · intro hp
    obtain ⟨t, ht⟩ := hp
    have hb : b = n ++ sep :: (s ++ sep :: t) := by rw [← ht]; simp
    exact hfcb (by rw [hb, firstComp_append_sep, firstComp_of_no_sep hsep])
  · intro hp
    obtain ⟨t, ht⟩ := hp
    have heq : n ++ sep :: s = b ++ sep :: t := by rw [← ht]; simp
    have h1 : firstComp (n ++ sep :: s) = firstComp (b ++ sep :: t) := by rw [heq]
    rw [hfca, firstComp_append_sep] at h1
    exact hfcb h1.symm

theorem pathSep_map_child {n s1 s2 : Str} (h : PathSep s1 s2) :
    PathSep (n ++ sep :: s1) (n ++ sep :: s2) := by
  obtain ⟨hne, h12, h21⟩ := h
  refine ⟨?_, ?_, ?_⟩
  · intro heq
    have := List.append_cancel_left heq
    simp only [List.cons.injEq] at this
    exact hne this.2
  · intro hp
    have heq : (n ++ sep :: s1) ++ [sep] = n ++ sep :: (s1 ++ [sep]) := by simp
    rw [heq] at hp
    exact h12 (prefix_cancel_sep hp)
  · intro hp
    have heq : (n ++ sep :: s2) ++ [sep] = n ++ sep :: (s2 ++ [sep]) := by simp
    rw [heq] at hp
    exact h21 (prefix_cancel_sep hp)

/-- Every relative path of a well-formed tree is non-empty and its first
component is the name of the child it descends from. -/
theorem relFiles_comp : ∀ (cs : List (Str × FSNode)), wfList cs →
    ∀ p ∈ relFiles cs, p.1 ≠ [] ∧ ∃ q ∈ cs, firstComp p.1 = q.1
  | [] => by
      intro _ p hp
      rw [relFiles] at hp
      cases hp
  | (n, FSNode.file m c) :: rest => by
      intro hwf p hp
      simp only [wfList] at hwf
      obtain ⟨hn, hsep, hnames, hrest⟩ := hwf
      rw [relFiles] at hp
      rcases List.mem_cons.mp hp with rfl | hp'
      · exact ⟨hn, ⟨(n, FSNode.file m c), by simp, firstComp_of_no_sep hsep⟩⟩
      · obtain ⟨hne, q, hq, hfc⟩ := relFiles_comp rest hrest p hp'
        exact ⟨hne, q, List.mem_cons_of_mem _ hq, hfc⟩
  | (n, FSNode.dir cs2) :: rest => by
      intro hwf p hp
      simp only [wfList] at hwf
      obtain ⟨hn, hsep, hnames, hcs2, hrest⟩ := hwf
      rw [relFiles] at hp
      rcases List.mem_append.mp hp with hp' | hp'
      · obtain ⟨p0, hp0, rfl⟩ := List.mem_map.mp hp'
        refine ⟨by simp, ⟨(n, FSNode.dir cs2), by simp, ?_⟩⟩
        show firstComp (n ++ sep :: p0.1) = n
        rw [firstComp_append_sep, firstComp_of_no_sep hsep]
      · obtain ⟨hne, q, hq, hfc⟩ := relFiles_comp rest hrest p hp'
        exact ⟨hne, q, List.mem_cons_of_mem _ hq, hfc⟩
  | (n, FSNode.symlink) :: rest => by
      intro hwf p hp
      simp only [wfList] at hwf
      obtain ⟨hn, hsep, hnames, hrest⟩ := hwf
      rw [relFiles] at hp
      obtain ⟨hne, q, hq, hfc⟩ := relFiles_comp rest hrest p hp
      exact ⟨hne, q, List.mem_cons_of_mem _ hq, hfc⟩
  | (n, FSNode.special) :: rest => by
      intro hwf p hp
      simp only [wfList] at hwf
      obtain ⟨hn, hsep, hnames, hrest⟩ := hwf
      rw [relFiles] at hp
      obtain ⟨hne, q, hq, hfc⟩ := relFiles_comp rest hrest p hp
      exact ⟨hne, q, List.mem_cons_of_mem _ hq, hfc⟩
termination_by cs => sizeOf cs

/-- The relative paths of a well-formed tree are pairwise separated: all
distinct, and none lies on another's directory chain. -/
theorem relFiles_pathSep : ∀ (cs : List (Str × FSNode)), wfList cs →
    ((relFiles cs).map (·.1)).Pairwise PathSep
  | [] => by rw [relFiles]; simp
  | (n, FSNode.file m c) :: rest => by
      intro hwf
      simp only [wfList] at hwf
      obtain ⟨hn, hsep, hnames, hrest⟩ := hwf
      rw [relFiles]
      simp only [List.map_cons]
      rw [List.pairwise_cons]
      refine ⟨?_, relFiles_pathSep rest hrest⟩
      intro r hr
      obtain ⟨p, hp, rfl⟩ := List.mem_map.mp hr
      obtain ⟨hne, q, hq, hfc⟩ := relFiles_comp rest hrest p hp
      exact pathSep_head hsep (by rw [hfc]; exact hnames q hq)
  | (n, FSNode.dir cs2) :: rest => by
      intro hwf
      simp only [wfList] at hwf
      obtain ⟨hn, hsep, hnames, hcs2, hrest⟩ := hwf
      rw [relFiles]
      simp only [List.map_append, List.map_map]
      rw [List.pairwise_append]
      refine ⟨?_, relFiles_pathSep rest hrest, ?_⟩
      · have hsub := relFiles_pathSep cs2 hcs2
        rw [List.pairwise_map] at hsub ⊢
        exact hsub.imp pathSep_map_child
      · intro a ha b hb
        obtain ⟨p0, hp0, rfl⟩ := List.mem_map.mp ha
        obtain ⟨pb, hpb, rfl⟩ := List.mem_map.mp hb
        obtain ⟨hne, q, hq, hfc⟩ := relFiles_comp rest hrest pb hpb
        exact pathSep_under hsep (by rw [hfc]; exact hnames q hq)
  | (n, FSNode.symlink) :: rest => by
      intro hwf
      simp only [wfList] at hwf
      obtain ⟨hn, hsep, hnames, hrest⟩ := hwf
      rw [relFiles]
      exact relFiles_pathSep rest hrest
  | (n, FSNode.special) :: rest => by
      intro hwf
      simp only [wfList] at hwf
      obtain ⟨hn, hsep, hnames, hrest⟩ := hwf
      rw [relFiles]
      exact relFiles_pathSep rest hrest
termination_by cs => sizeOf cs

theorem joinPath_inj {targ a b : Str} (ha : a ≠ []) (hb : b ≠ [])
    (h : joinPath targ a = joinPath targ b) : a = b := by
  rw [joinPath_of_ne ha, joinPath_of_ne hb] at h
  have := List.append_cancel_left h
  simpa using this

/-- The mangled archive of a well-formed tree whose relative paths never
let the root string reoccur: entry names are exactly the relative paths. -/
theorem saveEntries_names (dir : Str) (cs : List (Str × FSNode)) (hd : dir ≠ [])
    (hocc : ∀ p ∈ relFiles cs, ¬ dir <:+: sep :: p.1) :
    saveEntries dir cs = (relFiles cs).map (fun p => ⟨p.1, typeReg, p.2.1, p.2.2⟩) := by
  rw [saveEntries, walkEntries_eq_relFiles]
  apply List.map_congr_left
  intro p hp
  rw [tarEntryName_join dir p.1 hd (hocc p hp)]

/-- Decoding a list of fresh, pairwise-separated regular-file entries into
a filesystem that already holds exactly the `done` files (and only
directories lying on the entries' parent chains) succeeds and appends the
entries' files in order. -/
theorem restore_fresh : ∀ (L done : List (Str × Nat × List Nat)) (targ : Str) (fs : FS),
    targ ≠ [] →
    (∀ p ∈ done ++ L, (p.1 : Str) ≠ []) →
    (((done ++ L).map (·.1)).Pairwise PathSep) →
    fs.files = done.map (fun p => (joinPath targ p.1, p.2)) →
    (∀ d ∈ fs.dirs, ∃ r0 ∈ (done ++ L).map (·.1), (d.1 ++ [sep]) <+: joinPath targ r0) →
    ∃ fs2, restoreEntries targ fs (L.map (fun p => ⟨p.1, typeReg, p.2.1, p.2.2⟩)) = (fs2, none) ∧
      fs2.files = (done ++ L).map (fun p => (joinPath targ p.1, p.2)) := by
  intro L
  induction L with
  | nil =>
      intro done targ fs _ _ _ hfiles _
      exact ⟨fs, rfl, by simpa using hfiles⟩
  | cons p rest ih =>
      intro done targ fs htarg hnonempty hpair hfiles hdirs
      obtain ⟨r, m, c⟩ := p
      have hrne : r ≠ [] := hnonempty (r, m, c) (by simp)
      have htgt : joinPath targ r = targ ++ sep :: r := joinPath_of_ne hrne
      -- separation of the current path from every path in the problem
      have hnames : (done ++ (r, m, c) :: rest).map (·.1) =
          done.map (·.1) ++ r :: rest.map (·.1) := by simp
      have hkey : ∀ r2 ∈ (done ++ (r, m, c) :: rest).map (·.1),
          r2 = r ∨ PathSep r r2 ∨ PathSep r2 r := by
        rw [hnames] at hpair ⊢
        rw [List.pairwise_append] at hpair
        obtain ⟨hpA, hpB, hcross⟩ := hpair
        intro r2 hr2
        rcases List.mem_append.mp hr2 with h2 | h2
        · exact Or.inr (Or.inr (hcross r2 h2 r (by simp)))
        · rcases List.mem_cons.mp h2 with rfl | h2'
          · exact Or.inl rfl
          · rw [List.pairwise_cons] at hpB
            exact Or.inr (Or.inl (hpB.1 r2 h2'))
      have hnoup : ∀ r2 ∈ (done ++ (r, m, c) :: rest).map (·.1), ¬ (r ++ [sep]) <+: r2 := by
        intro r2 hr2 hcon
        rcases hkey r2 hr2 with rfl | hPS | hPS
        · exact not_append_sep_prefix_self r2 hcon
        · exact hPS.2.1 hcon
        · exact hPS.2.2 hcon
      have hnodown : ∀ r2 ∈ (done ++ (r, m, c) :: rest).map (·.1), ¬ (r2 ++ [sep]) <+: r := by
        intro r2 hr2 hcon
        rcases hkey r2 hr2 with rfl | hPS | hPS
        · exact not_append_sep_prefix_self _ hcon
        · exact hPS.2.2 hcon
        · exact hPS.2.1 hcon
      have hrne2 : ∀ p2 ∈ done, (p2.1 : Str) ≠ r := by
        intro p2 hp2 hcon
        rw [hnames] at hpair
        rw [List.pairwise_append] at hpair
        have := (hpair.2.2 p2.1 (List.mem_map_of_mem _ hp2) r (by simp)).1
        exact this hcon
      -- the parent-chain creation succeeds: no file conflicts
      have hanc : ∀ q ∈ properAncestors (dirOf (joinPath targ r)) ++ [dirOf (joinPath targ r)],
          lookupFile fs q = none := by
        intro q hq
        rw [htgt] at hq
        have hqpre : (q ++ [sep]) <+: targ ++ sep :: r := ancestors_of_target htarg hrne q hq
        show List.lookup q fs.files = none
        rw [hfiles]
        apply lookup_eq_none_of
        intro pd hpd hcon
        obtain ⟨p2, hp2, rfl⟩ := List.mem_map.mp hpd
        have hp2ne : (p2.1 : Str) ≠ [] := hnonempty p2 (by simp [hp2])
        have hq2 : joinPath targ p2.1 = q := hcon
        rw [← hq2] at hqpre
        rw [joinPath_of_ne hp2ne] at hqpre
        have : (targ ++ sep :: (p2.1 ++ [sep])) <+: targ ++ sep :: r := by
          have heq : targ ++ sep :: p2.1 ++ [sep] = targ ++ sep :: (p2.1 ++ [sep]) := by simp
          rw [heq] at hqpre
          exact hqpre
        have hpr : (p2.1 ++ [sep]) <+: r := prefix_cancel_sep this
        exact hnodown p2.1 (List.mem_map_of_mem _ (by simp [hp2])) hpr
      obtain ⟨fs1, heq1, hfiles1, hmono1, hdirs1, hclass1⟩ :=
        mkdirAll_spec fs (dirOf (joinPath targ r)) 493 hanc
      -- the write target is neither a directory nor an existing file
      have hnd1 : isDirAt fs1 (joinPath targ r) = false := by
        rw [Bool.eq_false_iff]
        intro hcon
        obtain ⟨d, hd, hd1⟩ := isDirAt_iff.mp hcon
        rcases hclass1 d hd with h1 | ⟨-, h2⟩
        · obtain ⟨r0, hr0, hpre⟩ := hdirs d h1
          obtain ⟨p2, hp2, rfl⟩ := List.mem_map.mp hr0
          have hp2ne : (p2.1 : Str) ≠ [] := hnonempty p2 hp2
          rw [hd1, htgt, joinPath_of_ne hp2ne] at hpre
          have heq : targ ++ sep :: r ++ [sep] = targ ++ sep :: (r ++ [sep]) := by simp
          rw [heq] at hpre
          have := prefix_cancel_sep hpre
          exact hnoup p2.1 (List.mem_map_of_mem _ hp2) this
        · rw [hd1, htgt] at h2
          have := ancestors_of_target htarg hrne _ h2
          rw [← htgt] at this
          rw [htgt] at this
          have heq : targ ++ sep :: r ++ [sep] = targ ++ sep :: (r ++ [sep]) := by simp
          rw [heq] at this
          have hpr : (r ++ [sep]) <+: r := prefix_cancel_sep this
          exact not_append_sep_prefix_self r hpr
      have hlook1 : List.lookup (joinPath targ r) fs1.files = none := by
        rw [hfiles1, hfiles]
        apply lookup_eq_none_of
        intro pd hpd hcon
        obtain ⟨p2, hp2, rfl⟩ := List.mem_map.mp hpd
        have hp2ne : (p2.1 : Str) ≠ [] := hnonempty p2 (by simp [hp2])
        have := joinPath_inj hp2ne hrne hcon
        exact hrne2 p2 hp2 this
      have hw := writeFileAt_create m c hnd1 hlook1
      -- recurse on the remaining entries
      have hassoc : done ++ [(r, m, c)] ++ rest = done ++ (r, m, c) :: rest := by simp
      have hfiles2 : ({ fs1 with files := fs1.files ++ [(joinPath targ r, m, c)] } : FS).files =
          (done ++ [(r, m, c)]).map (fun p => (joinPath targ p.1, p.2)) := by
        show fs1.files ++ [(joinPath targ r, m, c)] = _
        rw [hfiles1, hfiles]
        simp
      have hdirs2 : ∀ d ∈ ({ fs1 with files := fs1.files ++ [(joinPath targ r, m, c)] } : FS).dirs,
          ∃ r0 ∈ (done ++ [(r, m, c)] ++ rest).map (·.1), (d.1 ++ [sep]) <+: joinPath targ r0 := by
        intro d hd
        rcases hclass1 d hd with h1 | ⟨-, h2⟩
        · obtain ⟨r0, hr0, hpre⟩ := hdirs d h1
          exact ⟨r0, by rw [hassoc]; exact hr0, hpre⟩
        · have hm : ((r, m, c) : Str × Nat × List Nat) ∈ done ++ (r, m, c) :: rest := by simp
          refine ⟨r, by rw [hassoc]; exact List.mem_map_of_mem _ hm, ?_⟩
          rw [htgt] at h2 ⊢
          exact ancestors_of_target htarg hrne _ h2
      obtain ⟨fs3, hrec, hfiles3⟩ := ih (done ++ [(r, m, c)]) targ
        { fs1 with files := fs1.files ++ [(joinPath targ r, m, c)] }
        htarg (by rw [hassoc]; exact hnonempty) (by rw [hassoc]; exact hpair) hfiles2 hdirs2
      have hstep : restoreEntry targ fs ⟨r, typeReg, m, c⟩ =
          .ok { fs1 with files := fs1.files ++ [(joinPath targ r, m, c)] } := by
        have h1 : (typeReg = typeDir) = False := by simp [typeReg, typeDir]
        simp [restoreEntry, h1, heq1, hw]
      refine ⟨fs3, ?_, by rw [← hassoc]; exact hfiles3⟩
      rw [List.map_cons, restoreEntries, hstep]
      exact hrec

/-- C1 counterexample: the tree rooted at `/a` containing the single
regular file `a/x` (content `[7]`, mode 420). Its only relative path is
`a/x`, yet decoding the archive `Save` builds for it into the fresh empty
target `/t` leaves no file at `/t/a/x`: the interior occurrence of the root
string `/a` in the walk path `/a/a/x` is also removed by
`strings.Replace(..., -1)`, so the file is restored at `/t/x` instead. -/
theorem roundtrip_fails_when_root_reoccurs :
    relFiles [(str "a", FSNode.dir [(str "x", FSNode.file 420 [7])])] =
      [(str "a/x", 420, [7])] ∧
    lookupFile (restoreEntries (str "/t") FS.empty
        (saveEntries (str "/a") [(str "a", FSNode.dir [(str "x", FSNode.file 420 [7])])])).1
      (joinPath (str "/t") (str "a/x")) = none := by
  have hsave : saveEntries (str "/a") [(str "a", FSNode.dir [(str "x", FSNode.file 420 [7])])] =
      [⟨str "x", typeReg, 420, [7]⟩] := by
    simp [saveEntries, walkEntries, tarEntryName, replaceAll, trimPrefix, sep, str, typeReg]
  constructor
  · simp [relFiles, str, sep]
  · rw [hsave]
    rfl

/-- C1 (amended): for every well-formed tree (non-empty, separator-free,
sibling-distinct names) whose relative file paths never let the root
string reoccur (`¬ dir <:+: sep :: rel` for each file), saving under root
`dir` and decoding the archive into a fresh empty target directory `targ`
succeeds and reproduces exactly the tree's regular files: the resulting
filesystem holds precisely one file per regular file of the tree, at its
relative path under `targ`, with its permission bits and content. Without
the no-reoccurrence proviso the relative path is not preserved (see the
counterexample). -/
theorem roundtrip_restores_saved_tree (dir targ : Str) (cs : List (Str × FSNode))
    (hdir : dir ≠ []) (htarg : targ ≠ []) (hwf : wfList cs)
    (hocc : ∀ p ∈ relFiles cs, ¬ dir <:+: sep :: p.1) :
    ∃ fs2, restoreEntries targ FS.empty (saveEntries dir cs) = (fs2, none) ∧
      fs2.files = (relFiles cs).map (fun p => (joinPath targ p.1, p.2)) := by
  rw [saveEntries_names dir cs hdir hocc]
  have h := restore_fresh (relFiles cs) [] targ FS.empty htarg
    (fun p hp => (relFiles_comp cs hwf p (by simpa using hp)).1)
    (by simpa using relFiles_pathSep cs hwf)
    (by rfl)
    (by intro d hd; cases hd)
  simpa using h

/-- C1 witness: a concrete two-file tree (one nested) rounds trip into a
fresh target. -/
theorem roundtrip_restores_saved_tree_witness :
    ∃ fs2, restoreEntries (str "/t") FS.empty
        (saveEntries (str "/c") [(str "a", FSNode.dir [(str "x", FSNode.file 420 [7])]),
          (str "y", FSNode.file 416 [1])]) = (fs2, none) ∧
      fs2.files = (relFiles [(str "a", FSNode.dir [(str "x", FSNode.file 420 [7])]),
          (str "y", FSNode.file 416 [1])]).map (fun p => (joinPath (str "/t") p.1, p.2)) :=
  roundtrip_restores_saved_tree (str "/c") (str "/t")
    [(str "a", FSNode.dir [(str "x", FSNode.file 420 [7])]), (str "y", FSNode.file 416 [1])]
    (by decide) (by decide)
    (by simp [wfList, str, sep])
    (by
      have hrf : relFiles [(str "a", FSNode.dir [(str "x", FSNode.file 420 [7])]),
          (str "y", FSNode.file 416 [1])] = [(str "a/x", 420, [7]), (str "y", 416, [1])] := by
        simp [relFiles, str, sep]
      rw [hrf]
      decide)

end GCSCacher
